import Mathlib

/-!
Verification of the BuscadorBolets meteocat core: a shallow embedding of
the precipitation aggregator (src/meteocat/aggregations.py) and of the
wind station normalizer / daily series builder (src/meteocat/wind.py),
together with proofs about the claims of the specification.

Python values appearing in the data path are modelled as a JSON-like
type nested at most one level deep (all the code ever inspects), with
numeric atoms restricted to integers; decimal numbers enter the model
through their string form, exactly as the upstream API delivers them.
Python floats are modelled as exact rationals and Python round as
round-half-to-even on rationals, which coincides with the float
behaviour on every value handled in this development.
-/

/-! ### Generic list and string utilities used by the embedding -/

/-- Stable insertion of an element into a list: the element is placed
before the first existing element it compares le to. -/
def insertLe {α : Type} (le : α → α → Bool) (x : α) : List α → List α
  | [] => [x]
  | y :: ys => if le x y then x :: y :: ys else y :: insertLe le x ys

/-- Stable insertion sort; models both Python list.sort with a key and
the built-in sorted (any stable sort computes the same list). -/
def isort {α : Type} (le : α → α → Bool) : List α → List α
  | [] => []
  | x :: xs => insertLe le x (isort le xs)

/-- Removes duplicates keeping the first occurrence of each element, as
Python dict.fromkeys does; seen accumulates the already kept elements. -/
def dedupKeepFirst {α : Type} [DecidableEq α] (seen : List α) : List α → List α
  | [] => []
  | x :: xs =>
    if x ∈ seen then dedupKeepFirst seen xs
    else x :: dedupKeepFirst (x :: seen) xs

/-- Maps a fallible step over a list, stopping at the first failure:
models a Python for-loop whose body may raise. -/
def mapExcept {α β : Type} (f : α → Except String β) : List α → Except String (List β)
  | [] => .ok []
  | a :: l =>
    match f a with
    | .error e => .error e
    | .ok b =>
      match mapExcept f l with
      | .error e => .error e
      | .ok bs => .ok (b :: bs)

/-- The character for a decimal digit. -/
def digitChar (d : ℕ) : Char := Char.ofNat (48 + d)

/-- Little-endian decimal digits of a positive number, with explicit
structural fuel (sufficient whenever fuel is at least the number). -/
def natDigitsAux : ℕ → ℕ → List ℕ
  | _, 0 => []
  | 0, _ + 1 => []
  | fuel + 1, n + 1 => (n + 1) % 10 :: natDigitsAux fuel ((n + 1) / 10)

/-- Little-endian decimal digits of a number (empty for zero). -/
def natDigits (n : ℕ) : List ℕ := natDigitsAux n n

/-- Decimal representation of a natural number; models Python str of a
nonnegative int and the f-string decimal format. -/
def natRepr (n : ℕ) : String :=
  ⟨((if n = 0 then [0] else natDigits n).reverse.map digitChar)⟩

/-- Decimal representation of an integer; models Python str of an int. -/
def intRepr (z : ℤ) : String :=
  if z < 0 then "-" ++ natRepr z.natAbs else natRepr z.natAbs

/-- Zero-padded two-digit decimal format, Python format spec 02d. -/
def pad2 (n : ℕ) : String := if n < 10 then "0" ++ natRepr n else natRepr n

/-- Value of a little-endian digit list. -/
def digitsVal : List ℕ → ℕ
  | [] => 0
  | d :: ds => d + 10 * digitsVal ds

/-- Parses a list of decimal digit characters into a number; fails when
the list holds any non-digit. -/
def digitsToNat? : List Char → Option ℕ
  | [] => some 0
  | c :: cs =>
    if c.isDigit then
      (digitsToNat? cs).map (fun rest => (c.toNat - 48) * 10 ^ cs.length + rest)
    else none

/-- Splits a character list at the first dot, if any. -/
def splitAtDot (cs : List Char) : Option (List Char × List Char) :=
  match cs with
  | [] => none
  | c :: rest =>
    if c = '.' then some ([], rest)
    else (splitAtDot rest).map (fun p => (c :: p.1, p.2))

/-- Modelled from Python float applied to a string, restricted to plain
decimal literals: optional sign, digits, optional fractional part (no
exponent, no surrounding whitespace, no underscores); every string the
repository feeds to float falls in this fragment. -/
def strToRat? (s : String) : Option ℚ :=
  let cs := s.data
  let signed : Bool × List Char :=
    match cs with
    | '-' :: rest => (true, rest)
    | '+' :: rest => (false, rest)
    | _ => (false, cs)
  let body := signed.2
  match splitAtDot body with
  | none =>
    if body = [] then none
    else (digitsToNat? body).map (fun n => if signed.1 then -(n : ℚ) else (n : ℚ))
  | some (intPart, fracPart) =>
    if intPart = [] ∧ fracPart = [] then none
    else
      match digitsToNat? intPart, digitsToNat? fracPart with
      | some i, some f =>
        let q : ℚ := (i : ℚ) + (f : ℚ) / (10 : ℚ) ^ fracPart.length
        some (if signed.1 then -q else q)
      | _, _ => none

/-! ### Calendar dates and the ISO calendar -/

/-- A Gregorian calendar date, as Python datetime.date. -/
structure Date where
  year : ℕ
  month : ℕ
  day : ℕ
deriving DecidableEq, Repr

/-- Proleptic Gregorian leap-year test. -/
def isLeap (y : ℤ) : Bool := (y % 4 == 0 && y % 100 != 0) || y % 400 == 0

/-- Cumulative day counts before each month in a non-leap year. -/
def daysBeforeMonth (m : ℕ) : ℕ :=
  [0, 31, 59, 90, 120, 151, 181, 212, 243, 273, 304, 334].getD (m - 1) 0

/-- Number of days of a month. -/
def daysInMonth (y : ℤ) (m : ℕ) : ℕ :=
  if m = 2 then (if isLeap y then 29 else 28)
  else [31, 28, 31, 30, 31, 30, 31, 31, 30, 31, 30, 31].getD (m - 1) 31

/-- Proleptic Gregorian ordinal of a date, day 1 being January 1 of the
year 1, as Python date.toordinal. -/
def toOrdinal (y : ℤ) (m d : ℕ) : ℤ :=
  365 * (y - 1) + (y - 1).fdiv 4 - (y - 1).fdiv 100 + (y - 1).fdiv 400
    + (daysBeforeMonth m : ℤ) + (if 2 < m ∧ isLeap y then 1 else 0) + (d : ℤ)

/-- Ordinal of the Monday starting ISO week 1 of a year, following the
reference implementation used by Python date.isocalendar. -/
def isoweek1monday (y : ℤ) : ℤ :=
  let firstday := toOrdinal y 1 1
  let firstweekday := (firstday + 6) % 7
  let week1monday := firstday - firstweekday
  if 3 < firstweekday then week1monday + 7 else week1monday

/-- ISO-8601 calendar year and week of a date, as the first two
components of Python date.isocalendar; on dates with year at least 1
(every date the repository constructs) it agrees with Python. -/
def isocalendar (dt : Date) : ℕ × ℕ :=
  let y : ℤ := (dt.year : ℤ)
  let today := toOrdinal y dt.month dt.day
  let week := (today - isoweek1monday y).fdiv 7
  if week < 0 then
    ((y - 1).toNat, ((today - isoweek1monday (y - 1)).fdiv 7 + 1).toNat)
  else if 52 ≤ week ∧ isoweek1monday (y + 1) ≤ today then
    ((y + 1).toNat, 1)
  else
    (y.toNat, (week + 1).toNat)

/-- Parses an ISO YYYY-MM-DD string into a date, validating ranges, as
Python date.fromisoformat on the canonical date format (the only format
the repository produces). -/
def parseIsoDate (s : String) : Option Date :=
  match s.data with
  | [y1, y2, y3, y4, h1, m1, m2, h2, d1, d2] =>
    if h1 = '-' ∧ h2 = '-' ∧ y1.isDigit ∧ y2.isDigit ∧ y3.isDigit ∧ y4.isDigit
        ∧ m1.isDigit ∧ m2.isDigit ∧ d1.isDigit ∧ d2.isDigit then
      let y := (y1.toNat - 48) * 1000 + (y2.toNat - 48) * 100 + (y3.toNat - 48) * 10
        + (y4.toNat - 48)
      let m := (m1.toNat - 48) * 10 + (m2.toNat - 48)
      let d := (d1.toNat - 48) * 10 + (d2.toNat - 48)
      if 1 ≤ y ∧ 1 ≤ m ∧ m ≤ 12 ∧ 1 ≤ d ∧ d ≤ daysInMonth (y : ℤ) m then
        some ⟨y, m, d⟩
      else none
    else none
  | _ => none

/-- Date comparison, componentwise as Python date ordering. -/
def dateLe (a b : Date) : Bool :=
  a.year < b.year ∨ (a.year = b.year ∧ (a.month < b.month ∨
    (a.month = b.month ∧ a.day ≤ b.day)))

/-- Strict date comparison. -/
def dateLt (a b : Date) : Bool :=
  a.year < b.year ∨ (a.year = b.year ∧ (a.month < b.month ∨
    (a.month = b.month ∧ a.day < b.day)))

/-! ### JSON-like values

The upstream payloads are JSON documents; the code reads them at most one
level deep. Atoms are strings, integers or null; a top-level value may in
addition be a mapping from strings to atoms. -/

/-- An atomic JSON value (numeric atoms restricted to integers; decimal
numbers reach the code as strings). -/
inductive JAtom where
  | astr (s : String)
  | aint (n : ℤ)
  | anull
deriving DecidableEq, Repr

/-- A JSON value nested at most one level: an atom or a flat object. -/
inductive JVal where
  | vstr (s : String)
  | vint (n : ℤ)
  | vnull
  | vobj (fields : List (String × JAtom))
deriving DecidableEq, Repr

/-- A raw record: a mapping from string keys to values. Python dict keys
are unique; association lists with duplicate keys are outside the model
domain and resolved to the first binding. -/
abbrev JMap := List (String × JVal)

/-- Python dict.get on an atom-valued mapping (None when absent). -/
def atomGet (fields : List (String × JAtom)) (k : String) : Option JAtom :=
  fields.lookup k

/-- Python dict.get on a record. -/
def getV (m : JMap) (k : String) : Option JVal := m.lookup k

/-- Python str of an atom. -/
def pyStrA : JAtom → String
  | .astr s => s
  | .aint n => intRepr n
  | .anull => "None"

/-- Python repr of an atom, used inside the str of a dict. -/
def pyReprA : JAtom → String
  | .astr s => "\x27" ++ s ++ "\x27"
  | .aint n => intRepr n
  | .anull => "None"

/-- Python str of a value (dicts print as their repr). -/
def pyStrV : JVal → String
  | .vstr s => s
  | .vint n => intRepr n
  | .vnull => "None"
  | .vobj fields =>
    "\x7b" ++ String.intercalate ", "
      (fields.map (fun p => "\x27" ++ p.1 ++ "\x27: " ++ pyReprA p.2)) ++ "\x7d"

/-- Python truthiness of an optional atom: None, null, the empty string
and zero are falsy. -/
def pyTruthyA : Option JAtom → Bool
  | none => false
  | some .anull => false
  | some (.astr s) => !(s == "")
  | some (.aint n) => !(n == 0)

/-- The test value in (None, "") of the source, on an optional atom. -/
def emptyOrNoneA : Option JAtom → Bool
  | none => true
  | some .anull => true
  | some (.astr s) => s == ""
  | some (.aint _) => false

/-- Whether a value fails the test value not in (None, "") of the
source. -/
def emptyV : JVal → Bool
  | .vnull => true
  | .vstr s => s == ""
  | _ => false

/-! ### The precipitation aggregator (src/meteocat/aggregations.py) -/

/-- One aggregated output entry, the dict with period and value keys
built by aggregate_precipitation. -/
structure AggEntry where
  period : String
  value : ℚ
deriving DecidableEq, Repr

/-- The grouping key of a period: year paired with an optional
sub-period, as the tuples returned by the period-key helper. -/
abbrev PeriodKey := ℕ × Option ℕ

/-- Embeds normalize_date restricted to the values of the model: a
string is truncated to ten characters and parsed as an ISO date; any
other atom makes date.fromisoformat raise, which the caller catches. -/
def normalize_date : JAtom → Option Date
  | .astr s => parseIsoDate ⟨s.data.take 10⟩
  | _ => none

/-- Embeds the body of the normalization loop of aggregate_precipitation
for one entry: returns the (date, value) pair the loop appends, or none
when the loop skips the entry. -/
def parseEntry (value_key date_key : String) (entry : JVal) : Option (Date × ℚ) :=
  match entry with
  | .vobj fields =>
    let raw_date := atomGet fields date_key
    if pyTruthyA raw_date then
      match raw_date with
      | some a =>
        match normalize_date a with
        | none => none
        | some date =>
          let raw_value := atomGet fields value_key
          if emptyOrNoneA raw_value then none
          else
            match raw_value with
            | some (.aint n) => some (date, (n : ℚ))
            | some (.astr s) => (strToRat? s).map (fun q => (date, q))
            | _ => none
      | none => none
    else none
  | _ => none

/-- The normalized list of (date, value) pairs of
aggregate_precipitation, in input order. -/
def normalizeEntries (value_key date_key : String) (daily : List JVal) :
    List (Date × ℚ) :=
  daily.filterMap (parseEntry value_key date_key)

/-- Embeds the period-key helper of the source: unsupported frequency
names raise a ValueError. -/
def period_key (frequency : String) (date : Date) : Except String PeriodKey :=
  if frequency = "weekly" then
    .ok ((isocalendar date).1, some (isocalendar date).2)
  else if frequency = "monthly" then
    .ok (date.year, some date.month)
  else if frequency = "yearly" then
    .ok (date.year, none)
  else .error ("Unsupported frequency: " ++ frequency)

/-- Embeds the period-label helper of the source. -/
def period_label (frequency : String) (key : PeriodKey) : Except String String :=
  if frequency = "weekly" ∧ key.2.isSome then
    .ok (natRepr key.1 ++ "-W" ++ pad2 (key.2.getD 0))
  else if frequency = "monthly" ∧ key.2.isSome then
    .ok (natRepr key.1 ++ "-" ++ pad2 (key.2.getD 0))
  else if frequency = "yearly" then
    .ok (natRepr key.1)
  else .error ("Unsupported frequency: " ++ frequency)

/-- Round half to even to an integer, the rounding of Python round. -/
def rhe (q : ℚ) : ℤ :=
  let f := q.num.fdiv (q.den : ℤ)
  let r := q - (f : ℚ)
  if r < 1 / 2 then f
  else if 1 / 2 < r then f + 1
  else if f % 2 = 0 then f else f + 1

/-- Python round(x, 2) on the exact rational model of a float. -/
def round2 (q : ℚ) : ℚ := ((rhe (q * 100) : ℤ) : ℚ) / 100

/-- Ordering of period keys, as Python tuple comparison on the key
shapes that actually occur (uniform within each frequency). -/
def keyLe (a b : PeriodKey) : Bool :=
  a.1 < b.1 ∨ (a.1 = b.1 ∧
    (match a.2, b.2 with
      | none, _ => true
      | some _, none => true
      | some x, some y => decide (x ≤ y)) = true)

/-- Final content of the defaultdict of one frequency at a given key:
the sum of the values sharing that key. -/
def totalFor (k : PeriodKey) (keyed : List (PeriodKey × ℚ)) : ℚ :=
  ((keyed.filter (fun p => p.1 = k)).map Prod.snd).sum

/-- Keys the totals dict acquires, in first-occurrence order. -/
def keysOf (keyed : List (PeriodKey × ℚ)) : List PeriodKey :=
  dedupKeepFirst [] (keyed.map Prod.fst)

/-- Ordering of normalized pairs by date, the sort key of the source. -/
def dateValLe (a b : Date × ℚ) : Bool := dateLe a.1 b.1

/-- Embeds the per-frequency body of aggregate_precipitation: key every
normalized pair (raising on an unsupported frequency as soon as one
entry exists), group, sort the keys, and emit labelled rounded totals. -/
def aggOne (frequency : String) (normalized : List (Date × ℚ)) :
    Except String (List AggEntry) :=
  match mapExcept (fun p => (period_key frequency p.1).map (fun k => (k, p.2)))
      normalized with
  | .error e => .error e
  | .ok keyed =>
    mapExcept
      (fun k => (period_label frequency k).map
        (fun lab => AggEntry.mk lab (round2 (totalFor k keyed))))
      (isort keyLe (keysOf keyed))

/-- Embeds aggregate_precipitation. The result dict is modelled as the
association list of (frequency, aggregated list) pairs in insertion
order; a raised ValueError is the error case. -/
def aggregate_precipitation (daily_data : List JVal) (frequencies : List String)
    (value_key date_key : String) :
    Except String (List (String × List AggEntry)) :=
  let normalized := isort dateValLe (normalizeEntries value_key date_key daily_data)
  mapExcept (fun f => (aggOne f normalized).map (fun l => (f, l))) frequencies

/-! ### The wind collector (src/meteocat/wind.py) -/

/-- Normalized representation of a Meteocat station. -/
structure Station where
  code : String
  name : Option String
  municipality : Option String
  county : Option String
  latitude : Option ℚ
  longitude : Option ℚ
  altitude : Option ℚ
deriving DecidableEq, Repr

/-- Splits a candidate key at its first dot, as str.split with maxsplit
one; none when the key holds no dot. -/
def splitDot (key : String) : Option (String × String) :=
  match (splitAtDot key.data).map (fun p => ((⟨p.1⟩ : String), (⟨p.2⟩ : String))) with
  | some p => some p
  | none => none

/-- Embeds the optional field extractor: returns the first candidate key
whose value is neither None nor the empty string, as a string; a dotted
candidate descends one level when the parent value is a mapping. -/
def first_existing_optional (entry : JMap) : List String → Option String
  | [] => none
  | key :: rest =>
    match splitDot key with
    | some (parent_key, child_key) =>
      match getV entry parent_key with
      | some (.vobj fields) =>
        match atomGet fields child_key with
        | some a =>
          if emptyOrNoneA (some a) then first_existing_optional entry rest
          else some (pyStrA a)
        | none => first_existing_optional entry rest
      | _ => first_existing_optional entry rest
    | none =>
      match getV entry key with
      | some v => if emptyV v then first_existing_optional entry rest else some (pyStrV v)
      | none => first_existing_optional entry rest

/-- Embeds the required field extractor: a KeyError becomes the error
case. -/
def first_existing (entry : JMap) (keys : List String) : Except String String :=
  match first_existing_optional entry keys with
  | some v => .ok v
  | none => .error ("None of the keys " ++ String.intercalate ", " keys
      ++ " found in entry")

/-- Embeds the nested optional extractor used for municipality and
county: mapping candidates are read under the nested key, plain
candidates are taken directly. -/
def extract_nested_optional (entry : JMap) (keys : List String) (key : String) :
    Option String :=
  match keys with
  | [] => none
  | candidate :: rest =>
    match getV entry candidate with
    | some (.vobj fields) =>
      match atomGet fields key with
      | some nested =>
        if emptyOrNoneA (some nested) then extract_nested_optional entry rest key
        else some (pyStrA nested)
      | none => extract_nested_optional entry rest key
    | some v =>
      if emptyV v then extract_nested_optional entry rest key else some (pyStrV v)
    | none => extract_nested_optional entry rest key

/-- Embeds the numeric coercion helper: None and the empty string give
None, otherwise the string is parsed as a float, failure giving None. -/
def safe_float (value : Option String) : Option ℚ :=
  match value with
  | none => none
  | some "" => none
  | some s => strToRat? s

/-- Embeds the station normalizer: the required code lookup may raise a
KeyError, every other field degrades to None. -/
def normalize_station (raw : JMap) : Except String Station :=
  match first_existing raw ["codi", "codiEstacio", "codiXEMA", "code", "id"] with
  | .error e => .error e
  | .ok code =>
    .ok
      { code := code
        name := first_existing_optional raw ["nom", "nomEstacio", "descripcio", "name"]
        municipality := extract_nested_optional raw ["municipi", "municipio"] "nom"
        county := extract_nested_optional raw ["comarca"] "nom"
        latitude := safe_float (first_existing_optional raw
          ["latitud", "lat", "latitude", "coordenades.latitud", "coordinates.latitude"])
        longitude := safe_float (first_existing_optional raw
          ["longitud", "lon", "lng", "longitude", "coordenades.longitud",
            "coordinates.longitude"])
        altitude := safe_float (first_existing_optional raw
          ["altitud", "alt", "quota", "elevation"]) }

/-- Lexicographic order on (year, month) pairs, the tuple comparison of
the while condition of month_range. -/
def ymLe (a b : ℕ × ℕ) : Prop := a.1 < b.1 ∨ (a.1 = b.1 ∧ a.2 ≤ b.2)

instance : DecidablePred fun p : (ℕ × ℕ) × ℕ × ℕ => ymLe p.1 p.2 := by
  intro p; unfold ymLe; infer_instance

instance (a b : ℕ × ℕ) : Decidable (ymLe a b) := by unfold ymLe; infer_instance

/-- Successor of a (year, month) pair, wrapping the year at month 13. -/
def nextMonth (p : ℕ × ℕ) : ℕ × ℕ :=
  if p.2 + 1 = 13 then (p.1 + 1, 1) else (p.1, p.2 + 1)

/-- The loop of month_range, with structural fuel, sufficient whenever
fuel is at least the number of emitted months. -/
def monthRangeAux : ℕ → ℕ × ℕ → ℕ × ℕ → List (ℕ × ℕ)
  | 0, _, _ => []
  | fuel + 1, cur, stop =>
    if ymLe cur stop then cur :: monthRangeAux fuel (nextMonth cur) stop
    else []

/-- Embeds month_range: the (year, month) pairs between the two dates
inclusive, raising when start is after end. -/
def month_range (start_date end_date : Date) : Except String (List (ℕ × ℕ)) :=
  if dateLt end_date start_date then .error "start must be before end"
  else
    .ok (monthRangeAux (12 * (end_date.year + 1)) (start_date.year, start_date.month)
      (end_date.year, end_date.month))

/-- A cell of a daily record row: a string, a number, or None. -/
inductive Cell where
  | cs (s : String)
  | cq (q : ℚ)
  | cnone
deriving DecidableEq, Repr

/-- Cell of an optional string. -/
def cellOS : Option String → Cell
  | some s => .cs s
  | none => .cnone

/-- Cell of an optional number. -/
def cellOQ : Option ℚ → Cell
  | some q => .cq q
  | none => .cnone

/-- A daily record row: column name to cell, in insertion order. -/
abbrev Row := List (String × Cell)

/-- The base row created by setdefault for a new date of a station. -/
def baseRow (station : Station) (dateStr : String) : Row :=
  [ ("station_code", .cs station.code),
    ("station_name", cellOS station.name),
    ("municipality", cellOS station.municipality),
    ("county", cellOS station.county),
    ("latitude", cellOQ station.latitude),
    ("longitude", cellOQ station.longitude),
    ("altitude", cellOQ station.altitude),
    ("date", .cs dateStr) ]

/-- Python dict assignment on a row: an existing column is overwritten
in place, a new column is appended. -/
def rowSet (row : Row) (k : String) (v : Cell) : Row :=
  if (row.lookup k).isSome then
    row.map (fun p => if p.1 = k then (p.1, v) else p)
  else row ++ [(k, v)]

/-- The accumulating per-station mapping from date string to row, in
insertion order. -/
abbrev DailyMap := List (String × Row)

/-- One daily_records update: setdefault the date to a fresh base row,
then assign the variable column; a new date is appended at the end. -/
def updDaily (daily : DailyMap) (dateStr : String) (station : Station)
    (variable_code : String) (value : Option String) : DailyMap :=
  match daily.lookup dateStr with
  | some record =>
    daily.map (fun p =>
      if p.1 = dateStr then (p.1, rowSet record variable_code (cellOS value)) else p)
  | none =>
    daily ++ [(dateStr, rowSet (baseRow station dateStr) variable_code (cellOS value))]

/-- Atom-map version of the optional field extractor, used on the raw
per-day entries (whose candidate keys hold no dot, though dotted keys
are handled faithfully: an atom parent is never a mapping). -/
def firstAtomOptional (fields : List (String × JAtom)) : List String → Option String
  | [] => none
  | key :: rest =>
    match splitDot key with
    | some _ => firstAtomOptional fields rest
    | none =>
      match atomGet fields key with
      | some a =>
        if emptyOrNoneA (some a) then firstAtomOptional fields rest
        else some (pyStrA a)
      | none => firstAtomOptional fields rest

/-- Atom-map version of the required field extractor. -/
def firstAtom (fields : List (String × JAtom)) (keys : List String) :
    Except String String :=
  match firstAtomOptional fields keys with
  | some v => .ok v
  | none => .error ("None of the keys " ++ String.intercalate ", " keys
      ++ " found in entry")

/-- Embeds the body of the per-entry loop of collect_daily_wind_data:
non-mapping entries are skipped, a mapping without a date key raises
KeyError, otherwise the row of that date acquires the variable column. -/
def processEntry (station : Station) (variable_code : String) (daily : DailyMap)
    (entry : JVal) : Except String DailyMap :=
  match entry with
  | .vobj fields =>
    match firstAtom fields ["data", "dia", "date"] with
    | .error e => .error e
    | .ok date =>
      if date = "" then .ok daily
      else
        .ok (updDaily daily date station variable_code
          (firstAtomOptional fields ["valor", "value"]))
  | _ => .ok daily

/-- Folds processEntry over the entries of one fetch. -/
def processEntries (station : Station) (variable_code : String) (daily : DailyMap) :
    List JVal → Except String DailyMap
  | [] => .ok daily
  | e :: rest =>
    match processEntry station variable_code daily e with
    | .error err => .error err
    | .ok daily2 => processEntries station variable_code daily2 rest

/-- The external data-fetch collaborator: maps (station code, variable
code, year, month) to raw entries or a recoverable error. -/
abbrev Fetch := String → String → ℕ → ℕ → Except String (List JVal)

/-- The inner variable loop of one month: a fetch failure is logged and
skipped, leaving the accumulator untouched. -/
def processVars (fetch : Fetch) (station : Station) (y m : ℕ) (daily : DailyMap) :
    List String → Except String DailyMap
  | [] => .ok daily
  | vc :: rest =>
    match fetch station.code vc y m with
    | .error _ => processVars fetch station y m daily rest
    | .ok entries =>
      match processEntries station vc daily entries with
      | .error err => .error err
      | .ok daily2 => processVars fetch station y m daily2 rest

/-- The month loop of one station. -/
def processMonths (fetch : Fetch) (station : Station) (codes : List String)
    (daily : DailyMap) : List (ℕ × ℕ) → Except String DailyMap
  | [] => .ok daily
  | (y, m) :: rest =>
    match processVars fetch station y m daily codes with
    | .error err => .error err
    | .ok daily2 => processMonths fetch station codes daily2 rest

/-- Ordering of rows by their date column, the sort key of the emit
step (the date column always exists by construction). -/
def dateOfRow (r : Row) : String :=
  match r.lookup "date" with
  | some (.cs s) => s
  | _ => ""

/-- Row comparison by date string. -/
def rowDateLe (a b : Row) : Bool := decide (dateOfRow a ≤ dateOfRow b)

/-- The whole processing of one normalized station: all months and
variables folded into the per-date mapping, then the rows emitted
sorted ascending by date. -/
def stationRecords (fetch : Fetch) (station : Station) (codes : List String)
    (start_date end_date : Date) : Except String (List Row) :=
  match month_range start_date end_date with
  | .error e => .error e
  | .ok months =>
    match processMonths fetch station codes [] months with
    | .error err => .error err
    | .ok daily => .ok (isort rowDateLe (daily.map Prod.snd))

/-- The station loop of collect_daily_wind_data: a station whose
normalization raises KeyError is skipped, every other error propagates,
and each station block is appended in order. -/
def collectAux (fetch : Fetch) (codes : List String) (start_date end_date : Date) :
    List JMap → Except String (List Row)
  | [] => .ok []
  | raw :: rest =>
    match normalize_station raw with
    | .error _ => collectAux fetch codes start_date end_date rest
    | .ok station =>
      match stationRecords fetch station codes start_date end_date with
      | .error err => .error err
      | .ok rows =>
        match collectAux fetch codes start_date end_date rest with
        | .error err => .error err
        | .ok restRows => .ok (rows ++ restRows)

/-- Embeds collect_daily_wind_data, with the station list and the
data-fetch collaborator passed explicitly (they are the external HTTP
client of the source). -/
def collect_daily_wind_data (stations : List JMap) (fetch : Fetch)
    (start_date end_date : Date) (vars : List String) :
    Except String (List Row) :=
  collectAux fetch (dedupKeepFirst [] vars) start_date end_date stations

/-- A fetch collaborator equal to the given one except that every
failure is replaced by an empty entry list. -/
def emptyOnErr (fetch : Fetch) : Fetch := fun c v y m =>
  match fetch c v y m with
  | .ok l => .ok l
  | .error _ => .ok []

/-- The (month, variable) fetch combinations one station's loops issue,
in issue order. -/
def stationCalls (months : List (ℕ × ℕ)) (codes : List String) :
    List ((ℕ × ℕ) × String) :=
  months.flatMap (fun ym => codes.map (fun c => (ym, c)))

/-! ### Generic lemmas about the utility functions -/

theorem insertLe_perm {α : Type} (le : α → α → Bool) (x : α) (l : List α) :
    List.Perm (insertLe le x l) (x :: l) := by
  induction l with
  | nil => simp [insertLe]
  | cons y ys ih =>
    simp only [insertLe]
    by_cases h : le x y = true
    · simp [h]
    · simp only [h, if_false]
      exact (ih.cons y).trans (List.Perm.swap x y ys)

theorem isort_perm {α : Type} (le : α → α → Bool) (l : List α) :
    List.Perm (isort le l) l := by
  induction l with
  | nil => simp [isort]
  | cons x xs ih => exact (insertLe_perm le x (isort le xs)).trans (ih.cons x)

theorem mem_isort {α : Type} {le : α → α → Bool} {a : α} {l : List α} :
    a ∈ isort le l ↔ a ∈ l := (isort_perm le l).mem_iff

theorem mem_dedupKeepFirst {α : Type} [DecidableEq α] {a : α} :
    ∀ {l seen : List α}, a ∈ dedupKeepFirst seen l ↔ a ∈ l ∧ a ∉ seen := by
  intro l
  induction l with
  | nil => intro seen; simp [dedupKeepFirst]
  | cons x xs ih =>
    intro seen
    simp only [dedupKeepFirst]
    by_cases hx : x ∈ seen
    · rw [if_pos hx, ih]
      constructor
      · rintro ⟨h1, h2⟩; exact ⟨List.mem_cons_of_mem x h1, h2⟩
      · rintro ⟨h1, h2⟩
        rcases List.mem_cons.mp h1 with rfl | h1
        · exact absurd hx h2
        · exact ⟨h1, h2⟩
    · rw [if_neg hx]
      constructor
      · intro hmem
        rcases List.mem_cons.mp hmem with rfl | hmem
        · exact ⟨List.mem_cons_self a xs, hx⟩
        · obtain ⟨h1, h2⟩ := ih.mp hmem
          exact ⟨List.mem_cons_of_mem x h1,
            fun hs => h2 (List.mem_cons_of_mem x hs)⟩
      · rintro ⟨h1, h2⟩
        rcases List.mem_cons.mp h1 with rfl | h1
        · exact List.mem_cons_self a _
        · by_cases hax : a = x
          · exact hax ▸ List.mem_cons_self x _
          · refine List.mem_cons_of_mem x (ih.mpr ⟨h1, fun hs => ?_⟩)
            rcases List.mem_cons.mp hs with h | h
            · exact hax h
            · exact h2 h

theorem nodup_dedupKeepFirst {α : Type} [DecidableEq α] :
    ∀ (l seen : List α), (dedupKeepFirst seen l).Nodup := by
  intro l
  induction l with
  | nil => intro seen; simp [dedupKeepFirst]
  | cons x xs ih =>
    intro seen
    simp only [dedupKeepFirst]
    by_cases hx : x ∈ seen
    · rw [if_pos hx]; exact ih seen
    · rw [if_neg hx]
      refine List.nodup_cons.mpr ⟨fun hmem => ?_, ih (x :: seen)⟩
      exact (mem_dedupKeepFirst.mp hmem).2 (List.mem_cons_self x seen)

theorem dedupKeepFirst_sublist {α : Type} [DecidableEq α] :
    ∀ (l seen : List α), List.Sublist (dedupKeepFirst seen l) l := by
  intro l
  induction l with
  | nil => intro seen; simp [dedupKeepFirst]
  | cons x xs ih =>
    intro seen
    simp only [dedupKeepFirst]
    by_cases hx : x ∈ seen
    · rw [if_pos hx]; exact (ih seen).trans (List.sublist_cons_self x xs)
    · rw [if_neg hx]; exact (ih (x :: seen)).cons₂ x

theorem dedupKeepFirst_eq_self {α : Type} [DecidableEq α] :
    ∀ {l seen : List α}, l.Nodup → (∀ a ∈ l, a ∉ seen) → dedupKeepFirst seen l = l := by
  intro l
  induction l with
  | nil => intro seen _ _; simp [dedupKeepFirst]
  | cons x xs ih =>
    intro seen hnd hdis
    have hx : x ∉ seen := hdis x (List.mem_cons_self x xs)
    simp only [dedupKeepFirst, hx, if_false]
    congr 1
    refine ih (List.nodup_cons.mp hnd).2 ?_
    intro a ha hs
    rcases List.mem_cons.mp hs with h | h
    · exact (List.nodup_cons.mp hnd).1 (h ▸ ha)
    · exact hdis a (List.mem_cons_of_mem x ha) h

theorem dedupKeepFirst_idem {α : Type} [DecidableEq α] (l : List α) :
    dedupKeepFirst [] (dedupKeepFirst [] l) = dedupKeepFirst [] l :=
  dedupKeepFirst_eq_self (nodup_dedupKeepFirst l []) (fun a _ h => by simp at h)

theorem mapExcept_ok_of {α β : Type} {f : α → Except String β} {g : α → β} :
    ∀ {l : List α}, (∀ a ∈ l, f a = .ok (g a)) → mapExcept f l = .ok (l.map g) := by
  intro l h
  induction l with
  | nil => simp [mapExcept]
  | cons a as ih =>
    simp only [mapExcept, h a (List.mem_cons_self a as),
      ih (fun b hb => h b (List.mem_cons_of_mem a hb)), List.map_cons]

/-! ### Pure forms of the per-frequency aggregation -/

/-- Grouping key of the weekly frequency. -/
def weekKey (d : Date) : PeriodKey := ((isocalendar d).1, some (isocalendar d).2)

/-- Grouping key of the monthly frequency. -/
def monthKey (d : Date) : PeriodKey := (d.year, some d.month)

/-- Grouping key of the yearly frequency. -/
def yearKey (d : Date) : PeriodKey := (d.year, none)

/-- Weekly period label of a key. -/
def weekLabel (k : PeriodKey) : String := natRepr k.1 ++ "-W" ++ pad2 (k.2.getD 0)

/-- Monthly period label of a key. -/
def monthLabel (k : PeriodKey) : String := natRepr k.1 ++ "-" ++ pad2 (k.2.getD 0)

/-- Yearly period label of a key. -/
def yearLabel (k : PeriodKey) : String := natRepr k.1

/-- The successful result of one frequency of the aggregator, stated as
a pure function of the grouping key and label maps. -/
def aggPure (keyOf : Date → PeriodKey) (labelOf : PeriodKey → String)
    (normalized : List (Date × ℚ)) : List AggEntry :=
  let keyed := normalized.map (fun p => (keyOf p.1, p.2))
  (isort keyLe (keysOf keyed)).map
    (fun k => ⟨labelOf k, round2 (totalFor k keyed)⟩)

theorem period_key_weekly (d : Date) : period_key "weekly" d = .ok (weekKey d) := rfl

theorem period_key_monthly (d : Date) :
    period_key "monthly" d = .ok (monthKey d) := by
  simp [period_key, monthKey]

theorem period_key_yearly (d : Date) : period_key "yearly" d = .ok (yearKey d) := by
  simp [period_key, yearKey]

theorem keysOf_shape {keyOf : Date → PeriodKey} {normalized : List (Date × ℚ)}
    {k : PeriodKey} (hk : k ∈ isort keyLe (keysOf
      (normalized.map (fun p => (keyOf p.1, p.2))))) :
    ∃ d, k = keyOf d := by
  have h1 : k ∈ keysOf (normalized.map (fun p => (keyOf p.1, p.2))) :=
    mem_isort.mp hk
  have h2 : k ∈ (normalized.map (fun p => (keyOf p.1, p.2))).map Prod.fst :=
    (mem_dedupKeepFirst.mp h1).1
  simp only [List.map_map, List.mem_map, Function.comp] at h2
  obtain ⟨p, _, hp⟩ := h2
  exact ⟨p.1, hp.symm⟩

theorem aggOne_weekly (normalized : List (Date × ℚ)) :
    aggOne "weekly" normalized = .ok (aggPure weekKey weekLabel normalized) := by
  unfold aggOne aggPure
  rw [mapExcept_ok_of (g := fun p => (weekKey p.1, p.2))
    (fun p _ => by rw [period_key_weekly p.1]; rfl)]
  exact mapExcept_ok_of (fun k hk => by
    obtain ⟨d, rfl⟩ := keysOf_shape hk
    simp [period_label, weekKey, weekLabel, Except.map])

theorem aggOne_monthly (normalized : List (Date × ℚ)) :
    aggOne "monthly" normalized = .ok (aggPure monthKey monthLabel normalized) := by
  unfold aggOne aggPure
  rw [mapExcept_ok_of (g := fun p => (monthKey p.1, p.2))
    (fun p _ => by rw [period_key_monthly p.1]; rfl)]
  exact mapExcept_ok_of (fun k hk => by
    obtain ⟨d, rfl⟩ := keysOf_shape hk
    simp [period_label, monthKey, monthLabel, Except.map])

theorem aggOne_yearly (normalized : List (Date × ℚ)) :
    aggOne "yearly" normalized = .ok (aggPure yearKey yearLabel normalized) := by
  unfold aggOne aggPure
  rw [mapExcept_ok_of (g := fun p => (yearKey p.1, p.2))
    (fun p _ => by rw [period_key_yearly p.1]; rfl)]
  exact mapExcept_ok_of (fun k hk => by
    obtain ⟨d, rfl⟩ := keysOf_shape hk
    simp [period_label, yearKey, yearLabel, Except.map])

/-- The aggregator on the default frequency set always succeeds, with
the three pure per-frequency results. -/
theorem aggregate_default_eq (daily : List JVal) (vk dk : String) :
    aggregate_precipitation daily ["weekly", "monthly", "yearly"] vk dk
      = .ok [("weekly", aggPure weekKey weekLabel
                (isort dateValLe (normalizeEntries vk dk daily))),
             ("monthly", aggPure monthKey monthLabel
                (isort dateValLe (normalizeEntries vk dk daily))),
             ("yearly", aggPure yearKey yearLabel
                (isort dateValLe (normalizeEntries vk dk daily)))] := by
  unfold aggregate_precipitation
  simp only [mapExcept, aggOne_weekly, aggOne_monthly, aggOne_yearly, Except.map]

/-- Any supported frequency succeeds on any normalized list. -/
theorem aggOne_supported_ok {f : String} (normalized : List (Date × ℚ))
    (hf : f ∈ (["weekly", "monthly", "yearly"] : List String)) :
    ∃ out, aggOne f normalized = .ok out := by
  rcases List.mem_cons.mp hf with rfl | hf
  · exact ⟨_, aggOne_weekly normalized⟩
  rcases List.mem_cons.mp hf with rfl | hf
  · exact ⟨_, aggOne_monthly normalized⟩
  rcases List.mem_cons.mp hf with rfl | hf
  · exact ⟨_, aggOne_yearly normalized⟩
  · exact absurd hf (List.not_mem_nil f)

/-- An unsupported frequency raises as soon as one normalized entry
exists: the key helper is invoked on the first entry. -/
theorem aggOne_unsupported_error {f : String} {normalized : List (Date × ℚ)}
    (hbad : f ∉ (["weekly", "monthly", "yearly"] : List String))
    (hne : normalized ≠ []) :
    aggOne f normalized = .error ("Unsupported frequency: " ++ f) := by
  obtain ⟨p, rest, rfl⟩ := List.exists_cons_of_ne_nil hne
  have h1 : f ≠ "weekly" := fun h => hbad (h ▸ List.mem_cons_self _ _)
  have h2 : f ≠ "monthly" := fun h => hbad (by simp [h])
  have h3 : f ≠ "yearly" := fun h => hbad (by simp [h])
  simp only [aggOne, mapExcept, period_key, h1, h2, h3, if_false, Except.map]

/-- Reduction of Except.map on a success. -/
theorem exceptMap_ok {α β : Type} (f : α → β) (a : α) :
    Except.map f (Except.ok a : Except String α) = .ok (f a) := rfl

/-- Reduction of Except.map on a failure. -/
theorem exceptMap_error {α β : Type} (f : α → β) (e : String) :
    Except.map f (Except.error e : Except String α) = .error e := rfl

/-- The frequency loop raises whenever some requested frequency is
unsupported and at least one normalized entry exists. -/
theorem aggLoop_error_of_unsupported {f : String} {S : List (Date × ℚ)}
    (hbad : f ∉ (["weekly", "monthly", "yearly"] : List String)) (hne : S ≠ []) :
    ∀ {freqs : List String}, f ∈ freqs →
      ∃ e, mapExcept (fun fr => (aggOne fr S).map (fun l => (fr, l))) freqs
        = .error e := by
  intro freqs hmem
  induction freqs with
  | nil => exact absurd hmem (List.not_mem_nil f)
  | cons g rest ih =>
    by_cases hg : g ∈ (["weekly", "monthly", "yearly"] : List String)
    · obtain ⟨out, hout⟩ := aggOne_supported_ok S hg
      have hfr : f ∈ rest := by
        rcases List.mem_cons.mp hmem with rfl | h
        · exact absurd hg hbad
        · exact h
      obtain ⟨e, he⟩ := ih hfr
      refine ⟨e, ?_⟩
      simp only [mapExcept, hout, exceptMap_ok, he]
    · refine ⟨"Unsupported frequency: " ++ g, ?_⟩
      simp only [mapExcept, aggOne_unsupported_error hg hne, exceptMap_error]

/-! ### Claim C1 -/

/-- C1 counterexample: on an empty input iterable the aggregator does
not raise on the unsupported frequency name bogus; it returns it mapped
to an empty list, because the key helper is only invoked while looping
over normalized entries and there are none. -/
theorem C1_counterexample :
    aggregate_precipitation [] ["bogus"] "value" "date"
      = .ok [("bogus", [])] := by
  with_unfolding_all rfl

/-- C1 (amended): calling aggregate_precipitation with a frequencies
list containing a name other than weekly, monthly or yearly raises a
ValueError, provided at least one input entry survives normalization;
with no normalized entries the unsupported name is silently mapped to
an empty list instead. -/
theorem C1_unsupported_frequency_raises (daily : List JVal)
    (freqs : List String) (vk dk f : String) (hmem : f ∈ freqs)
    (hbad : f ∉ (["weekly", "monthly", "yearly"] : List String))
    (hne : normalizeEntries vk dk daily ≠ []) :
    ∃ e, aggregate_precipitation daily freqs vk dk = .error e := by
  have hS : isort dateValLe (normalizeEntries vk dk daily) ≠ [] := by
    intro h
    exact hne (List.eq_nil_of_length_eq_zero
      (((isort_perm dateValLe _).symm.length_eq).trans (by simp [h])))
  exact aggLoop_error_of_unsupported hbad hS hmem

/-- C1 witness: with one well-formed entry present, the frequency name
bogus makes the aggregator raise. -/
theorem C1_witness :
    ∃ e, aggregate_precipitation
      [.vobj [("date", .astr "2024-08-01"), ("value", .aint 1)]]
      ["bogus"] "value" "date" = .error e := by
  refine C1_unsupported_frequency_raises _ _ _ _ "bogus" (by simp) (by simp) ?_
  have h : normalizeEntries "value" "date"
      [.vobj [("date", .astr "2024-08-01"), ("value", .aint 1)]]
      = [(⟨2024, 8, 1⟩, (1 : ℚ))] := by with_unfolding_all rfl
  simp [h]

/-! ### Claim C5 -/

/-- C5: the three-entry example is not deduplicated — both entries of
2024-08-01 contribute — giving monthly total 6 under 2024-08 and weekly
totals 3 under 2024-W31 and 3 under 2024-W32 (and yearly total 6). -/
theorem C5_example_totals :
    aggregate_precipitation
      [ .vobj [("date", .astr "2024-08-01"), ("value", .aint 1)],
        .vobj [("date", .astr "2024-08-01"), ("value", .aint 2)],
        .vobj [("date", .astr "2024-08-08"), ("value", .aint 3)] ]
      ["weekly", "monthly", "yearly"] "value" "date"
    = .ok [ ("weekly", [⟨"2024-W31", 3⟩, ⟨"2024-W32", 3⟩]),
            ("monthly", [⟨"2024-08", 6⟩]),
            ("yearly", [⟨"2024", 6⟩]) ] := by
  with_unfolding_all rfl

/-! ### Claim C3 -/

theorem filterMap_filter_isSome {α β : Type} (f : α → Option β) :
    ∀ (l : List α), (l.filter (fun a => (f a).isSome)).filterMap f = l.filterMap f := by
  intro l
  induction l with
  | nil => simp
  | cons x xs ih =>
    by_cases hx : (f x).isSome
    · obtain ⟨b, hb⟩ := Option.isSome_iff_exists.mp hx
      simp [List.filter_cons, hx, List.filterMap_cons, hb, ih]
    · have hnone : f x = none := Option.not_isSome_iff_eq_none.mp hx
      simp [List.filter_cons, hx, List.filterMap_cons, hnone, ih]

/-- C3: the aggregator never raises because of malformed entries and
drops them exactly: on any frequency list it computes the very same
result as on the input with every non-normalizable entry removed (first
conjunct), it always succeeds on the default frequencies (second
conjunct), and the three malformed shapes named by the specification —
a None entry, a date with a non-numeric value, an unparseable date
string — are indeed dropped by normalization (last conjuncts). -/
theorem C3_malformed_entries_dropped :
    (∀ (daily : List JVal) (freqs : List String) (vk dk : String),
      aggregate_precipitation daily freqs vk dk
        = aggregate_precipitation
            (daily.filter (fun e => (parseEntry vk dk e).isSome)) freqs vk dk)
    ∧ (∀ (daily : List JVal) (vk dk : String),
        ∃ r, aggregate_precipitation daily ["weekly", "monthly", "yearly"] vk dk
          = .ok r)
    ∧ parseEntry "value" "date" .vnull = none
    ∧ parseEntry "value" "date"
        (.vobj [("date", .astr "2024-08-01"), ("value", .astr "abc")]) = none
    ∧ parseEntry "value" "date"
        (.vobj [("date", .astr "not-a-date"), ("value", .aint 1)]) = none := by
  refine ⟨?_, ?_, rfl, by with_unfolding_all rfl, by with_unfolding_all rfl⟩
  · intro daily freqs vk dk
    unfold aggregate_precipitation
    rw [show normalizeEntries vk dk (daily.filter (fun e => (parseEntry vk dk e).isSome))
        = normalizeEntries vk dk daily from filterMap_filter_isSome _ daily]
  · intro daily vk dk
    exact ⟨_, aggregate_default_eq daily vk dk⟩

/-! ### Claim C4 -/

/-- A parsed date string cannot be empty. -/
theorem normalize_date_ne_empty {s : String} {d : Date}
    (h : normalize_date (.astr s) = some d) : s ≠ "" := by
  intro hs
  rw [hs, show normalize_date (.astr "") = none from rfl] at h
  exact Option.noConfusion h

/-- Normalization of a single well-formed entry. -/
theorem normalizeEntries_singleton {s : String} {d : Date} (v : ℤ) {vk dk : String}
    (hd : normalize_date (.astr s) = some d) (hne : vk ≠ dk) :
    normalizeEntries vk dk [.vobj [(dk, .astr s), (vk, .aint v)]]
      = [(d, (v : ℚ))] := by
  have hs : s ≠ "" := normalize_date_ne_empty hd
  simp only [normalizeEntries, List.filterMap_cons, List.filterMap_nil, parseEntry,
    atomGet, List.lookup, beq_self_eq_true, beq_eq_false_iff_ne.mpr hne, cond,
    pyTruthyA, hd, emptyOrNoneA]
  simp [hs]

/-- C4: weekly aggregation groups a well-formed entry by the ISO
calendar (year, week) of its date, not the Gregorian year: the key
helper maps every date to its isocalendar pair (first conjunct), and a
single-entry input is emitted under the label built from the ISO year
and the zero-padded ISO week (second conjunct); at a late-December date
whose ISO week is week 1 the label therefore carries the next year, as
the witness shows. -/
theorem C4_weekly_iso_grouping (s : String) (v : ℤ) (d : Date) (vk dk : String)
    (hd : normalize_date (.astr s) = some d) (hne : vk ≠ dk) :
    (∀ d2 : Date, period_key "weekly" d2
        = .ok ((isocalendar d2).1, some (isocalendar d2).2))
    ∧ aggregate_precipitation [.vobj [(dk, .astr s), (vk, .aint v)]] ["weekly"] vk dk
        = .ok [("weekly",
            [⟨natRepr (isocalendar d).1 ++ "-W" ++ pad2 (isocalendar d).2,
              round2 (v : ℚ)⟩])] := by
  refine ⟨fun d2 => period_key_weekly d2, ?_⟩
  unfold aggregate_precipitation
  rw [normalizeEntries_singleton v hd hne]
  simp only [isort, insertLe, mapExcept, aggOne_weekly, exceptMap_ok]
  simp [aggPure, keysOf, dedupKeepFirst, isort, insertLe, weekLabel, weekKey,
    totalFor, List.filter]

/-- C4 witness: December 30, 2024 falls in ISO week 1 of 2025 and is
emitted under the label 2025-W01, with the week number zero-padded. -/
theorem C4_witness :
    aggregate_precipitation
      [.vobj [("date", .astr "2024-12-30"), ("value", .aint 1)]]
      ["weekly"] "value" "date"
      = .ok [("weekly", [⟨"2025-W01", (1 : ℚ)⟩])] := by
  have h := (C4_weekly_iso_grouping "2024-12-30" 1 ⟨2024, 12, 30⟩ "value" "date"
    (by with_unfolding_all rfl) (by decide)).2
  rw [h]
  with_unfolding_all rfl

/-! ### Claims C7 and C8: the station normalizer -/

/-- Whether an optional record value fails the non-empty test of the
field extractor (missing, null, or the empty string). -/
def emptyOptV : Option JVal → Bool
  | none => true
  | some w => emptyV w

theorem firstExistingOptional_skip {raw : JMap} {k : String} {keys : List String}
    (hk : splitDot k = none) (he : emptyOptV (getV raw k) = true) :
    first_existing_optional raw (k :: keys) = first_existing_optional raw keys := by
  simp only [first_existing_optional, hk]
  cases hv : getV raw k with
  | none => rfl
  | some v =>
    have : emptyV v = true := by rw [hv] at he; exact he
    simp [this]

theorem firstExistingOptional_hit {raw : JMap} {k : String} {keys : List String}
    {v : JVal} (hk : splitDot k = none) (hv : getV raw k = some v)
    (hne : emptyV v = false) :
    first_existing_optional raw (k :: keys) = some (pyStrV v) := by
  simp [first_existing_optional, hk, hv, hne]

theorem firstExistingOptional_dotted_hit {raw : JMap} {k pk ck : String}
    {keys : List String} {fields : List (String × JAtom)} {a : JAtom}
    (hk : splitDot k = some (pk, ck)) (hp : getV raw pk = some (.vobj fields))
    (ha : atomGet fields ck = some a) (hne : emptyOrNoneA (some a) = false) :
    first_existing_optional raw (k :: keys) = some (pyStrA a) := by
  simp [first_existing_optional, hk, hp, ha, hne]

theorem firstExistingOptional_dotless_none {raw : JMap} :
    ∀ {keys : List String}, (∀ k ∈ keys, splitDot k = none) →
      (first_existing_optional raw keys = none
        ↔ ∀ k ∈ keys, emptyOptV (getV raw k) = true) := by
  intro keys hdot
  induction keys with
  | nil => simp [first_existing_optional]
  | cons k rest ih =>
    have hk : splitDot k = none := hdot k (List.mem_cons_self k rest)
    have ihr := ih (fun k2 h2 => hdot k2 (List.mem_cons_of_mem k h2))
    by_cases he : emptyOptV (getV raw k) = true
    · rw [firstExistingOptional_skip hk he, ihr]
      constructor
      · intro h k2 h2
        rcases List.mem_cons.mp h2 with rfl | h2
        · exact he
        · exact h k2 h2
      · intro h k2 h2
        exact h k2 (List.mem_cons_of_mem k h2)
    · cases hv : getV raw k with
      | none => exact absurd (by simp [emptyOptV, hv]) he
      | some v =>
        have hne : emptyV v = false := by
          rw [hv] at he
          simpa [emptyOptV] using Bool.not_eq_true _ ▸ (eq_false_of_ne_true he)
        rw [firstExistingOptional_hit hk hv hne]
        constructor
        · intro h; exact Option.noConfusion h
        · intro h
          have := h k (List.mem_cons_self k rest)
          rw [hv] at this
          simp [emptyOptV, hne] at this

/-- When some code alias resolves, normalization succeeds. -/
theorem normalize_station_ok_of_opt {raw : JMap} {c : String}
    (hopt : first_existing_optional raw
      ["codi", "codiEstacio", "codiXEMA", "code", "id"] = some c) :
    ∃ st, normalize_station raw = .ok st := by
  unfold normalize_station first_existing
  rw [hopt]
  exact ⟨_, rfl⟩

/-- When no code alias resolves, normalization raises. -/
theorem normalize_station_error_of_opt {raw : JMap}
    (hopt : first_existing_optional raw
      ["codi", "codiEstacio", "codiXEMA", "code", "id"] = none) :
    ∃ e, normalize_station raw = .error e := by
  unfold normalize_station first_existing
  rw [hopt]
  exact ⟨_, rfl⟩

/-- C8: on every mapping input, the Station Normalizer succeeds exactly
when some code alias key (codi, codiEstacio, codiXEMA, code, id) holds
a non-null, non-empty value, and raises its KeyError exactly when none
does; no other field can make it raise. -/
theorem C8_normalizer_raises_iff_no_code (raw : JMap) :
    ((∃ st, normalize_station raw = .ok st)
      ↔ ∃ k ∈ (["codi", "codiEstacio", "codiXEMA", "code", "id"] : List String),
          emptyOptV (getV raw k) = false)
    ∧ ((∃ e, normalize_station raw = .error e)
      ↔ ∀ k ∈ (["codi", "codiEstacio", "codiXEMA", "code", "id"] : List String),
          emptyOptV (getV raw k) = true) := by
  have hdot : ∀ k ∈ (["codi", "codiEstacio", "codiXEMA", "code", "id"] : List String),
      splitDot k = none := by decide
  have hiff := @firstExistingOptional_dotless_none raw _ hdot
  constructor
  · constructor
    · rintro ⟨st, hst⟩
      by_contra hall
      push_neg at hall
      have hempty : ∀ k ∈ (["codi", "codiEstacio", "codiXEMA", "code", "id"] :
          List String), emptyOptV (getV raw k) = true := by
        intro k hk
        have h := hall k hk
        revert h
        cases emptyOptV (getV raw k) <;> simp
      obtain ⟨e, he⟩ := normalize_station_error_of_opt (hiff.mpr hempty)
      rw [hst] at he
      exact Except.noConfusion he
    · rintro ⟨k, hk, hne⟩
      cases hopt : first_existing_optional raw
          ["codi", "codiEstacio", "codiXEMA", "code", "id"] with
      | none =>
        have h := hiff.mp hopt k hk
        rw [h] at hne
        exact Bool.noConfusion hne
      | some c => exact normalize_station_ok_of_opt hopt
  · constructor
    · rintro ⟨e, he⟩
      refine hiff.mp ?_
      cases hopt : first_existing_optional raw
          ["codi", "codiEstacio", "codiXEMA", "code", "id"] with
      | none => rfl
      | some c =>
        obtain ⟨st, hst⟩ := normalize_station_ok_of_opt hopt
        rw [hst] at he
        exact Except.noConfusion he
    · intro hempty
      exact normalize_station_error_of_opt (hiff.mpr hempty)

/-- C7: a record whose code appears only under the alias codiXEMA and
whose coordinates appear only nested under coordenades as the strings
41.5 and 2.1 normalizes to a Station with latitude 41.5 and longitude
2.1: the dotted candidates resolve and the strings are coerced to
numbers. -/
theorem C7_nested_coordinates (raw : JMap) (c : String)
    (cfields : List (String × JAtom))
    (h1 : emptyOptV (getV raw "codi") = true)
    (h2 : emptyOptV (getV raw "codiEstacio") = true)
    (h3 : getV raw "codiXEMA" = some (.vstr c)) (hc : c ≠ "")
    (hlat1 : emptyOptV (getV raw "latitud") = true)
    (hlat2 : emptyOptV (getV raw "lat") = true)
    (hlat3 : emptyOptV (getV raw "latitude") = true)
    (hco : getV raw "coordenades" = some (.vobj cfields))
    (hla : atomGet cfields "latitud" = some (.astr "41.5"))
    (hlon1 : emptyOptV (getV raw "longitud") = true)
    (hlon2 : emptyOptV (getV raw "lon") = true)
    (hlon3 : emptyOptV (getV raw "lng") = true)
    (hlon4 : emptyOptV (getV raw "longitude") = true)
    (hlo : atomGet cfields "longitud" = some (.astr "2.1")) :
    ∃ st, normalize_station raw = .ok st
      ∧ st.latitude = some ((83 : ℚ) / 2) ∧ st.longitude = some ((21 : ℚ) / 10) := by
  have hcv : emptyV (.vstr c) = false := by
    simp [emptyV, hc]
  have hcopt : first_existing_optional raw
      ["codi", "codiEstacio", "codiXEMA", "code", "id"] = some c := by
    rw [firstExistingOptional_skip (by decide) h1,
      firstExistingOptional_skip (by decide) h2,
      firstExistingOptional_hit (by decide) h3 hcv]
    rfl
  have hlatopt : first_existing_optional raw
      ["latitud", "lat", "latitude", "coordenades.latitud", "coordinates.latitude"]
      = some "41.5" := by
    rw [firstExistingOptional_skip (by decide) hlat1,
      firstExistingOptional_skip (by decide) hlat2,
      firstExistingOptional_skip (by decide) hlat3,
      firstExistingOptional_dotted_hit (by decide) hco hla (by decide)]
    rfl
  have hlonopt : first_existing_optional raw
      ["longitud", "lon", "lng", "longitude", "coordenades.longitud",
        "coordinates.longitude"] = some "2.1" := by
    rw [firstExistingOptional_skip (by decide) hlon1,
      firstExistingOptional_skip (by decide) hlon2,
      firstExistingOptional_skip (by decide) hlon3,
      firstExistingOptional_skip (by decide) hlon4,
      firstExistingOptional_dotted_hit (by decide) hco hlo (by decide)]
    rfl
  unfold normalize_station first_existing
  rw [hcopt, hlatopt, hlonopt]
  refine ⟨_, rfl, ?_, ?_⟩
  · with_unfolding_all rfl
  · with_unfolding_all rfl

/-- C7 witness: the concrete record of the specification example. -/
theorem C7_witness :
    ∃ st, normalize_station
        [("codiXEMA", .vstr "X1"),
         ("coordenades", .vobj [("latitud", .astr "41.5"), ("longitud", .astr "2.1")])]
      = .ok st
      ∧ st.latitude = some ((83 : ℚ) / 2) ∧ st.longitude = some ((21 : ℚ) / 10) := by
  refine C7_nested_coordinates _ "X1"
    [("latitud", .astr "41.5"), ("longitud", .astr "2.1")] (by decide) (by decide) (by decide)
    (by decide) (by decide) (by decide) (by decide) (by decide) (by decide)
    (by decide) (by decide) (by decide) (by decide) (by decide)

/-! ### Claim C9: per-fetch error isolation -/

theorem processVars_emptyOnErr (fetch : Fetch) (station : Station) (y m : ℕ) :
    ∀ (codes : List String) (daily : DailyMap),
      processVars (emptyOnErr fetch) station y m daily codes
        = processVars fetch station y m daily codes := by
  intro codes
  induction codes with
  | nil => intro daily; rfl
  | cons vc rest ih =>
    intro daily
    cases hf : fetch station.code vc y m with
    | error e =>
      have h1 : emptyOnErr fetch station.code vc y m = .ok [] := by
        simp [emptyOnErr, hf]
      show (match emptyOnErr fetch station.code vc y m with
        | Except.error _ => processVars (emptyOnErr fetch) station y m daily rest
        | Except.ok entries =>
          match processEntries station vc daily entries with
          | Except.error err => Except.error err
          | Except.ok daily2 => processVars (emptyOnErr fetch) station y m daily2 rest)
        = processVars fetch station y m daily (vc :: rest)
      rw [h1]
      show processVars (emptyOnErr fetch) station y m daily rest
        = processVars fetch station y m daily (vc :: rest)
      rw [ih daily]
      show processVars fetch station y m daily rest
        = match fetch station.code vc y m with
          | Except.error _ => processVars fetch station y m daily rest
          | Except.ok entries =>
            match processEntries station vc daily entries with
            | Except.error err => Except.error err
            | Except.ok daily2 => processVars fetch station y m daily2 rest
      rw [hf]
    | ok entries =>
      have h1 : emptyOnErr fetch station.code vc y m = .ok entries := by
        simp [emptyOnErr, hf]
      show (match emptyOnErr fetch station.code vc y m with
        | Except.error _ => processVars (emptyOnErr fetch) station y m daily rest
        | Except.ok entries =>
          match processEntries station vc daily entries with
          | Except.error err => Except.error err
          | Except.ok daily2 => processVars (emptyOnErr fetch) station y m daily2 rest)
        = match fetch station.code vc y m with
          | Except.error _ => processVars fetch station y m daily rest
          | Except.ok entries =>
            match processEntries station vc daily entries with
            | Except.error err => Except.error err
            | Except.ok daily2 => processVars fetch station y m daily2 rest
      rw [h1, hf]
      show (match processEntries station vc daily entries with
        | Except.error err => Except.error err
        | Except.ok daily2 => processVars (emptyOnErr fetch) station y m daily2 rest)
        = match processEntries station vc daily entries with
          | Except.error err => Except.error err
          | Except.ok daily2 => processVars fetch station y m daily2 rest
      cases hpe : processEntries station vc daily entries with
      | error err => rfl
      | ok daily2 => exact ih daily2

theorem processMonths_emptyOnErr (fetch : Fetch) (station : Station)
    (codes : List String) :
    ∀ (months : List (ℕ × ℕ)) (daily : DailyMap),
      processMonths (emptyOnErr fetch) station codes daily months
        = processMonths fetch station codes daily months := by
  intro months
  induction months with
  | nil => intro daily; rfl
  | cons ym rest ih =>
    intro daily
    obtain ⟨y, m⟩ := ym
    simp only [processMonths, processVars_emptyOnErr]
    cases processVars fetch station y m daily codes with
    | error err => rfl
    | ok daily2 => exact ih daily2

theorem stationRecords_emptyOnErr (fetch : Fetch) (station : Station)
    (codes : List String) (s e : Date) :
    stationRecords (emptyOnErr fetch) station codes s e
      = stationRecords fetch station codes s e := by
  unfold stationRecords
  simp only [processMonths_emptyOnErr]

theorem collectAux_emptyOnErr (fetch : Fetch) (codes : List String) (s e : Date) :
    ∀ stations : List JMap,
      collectAux (emptyOnErr fetch) codes s e stations
        = collectAux fetch codes s e stations := by
  intro stations
  induction stations with
  | nil => rfl
  | cons raw rest ih =>
    simp only [collectAux, stationRecords_emptyOnErr, ih]

/-- C9: collect_daily_wind_data treats every failing fetch combination
exactly as if it had returned an empty entry list: for every fetch
collaborator (failing on arbitrary combinations) the whole run computes
the very same result — in particular it returns normally whenever the
failure-free run does, each failing combination removing only its own
contributions. -/
theorem C9_fetch_failures_isolated (stations : List JMap) (fetch : Fetch)
    (s e : Date) (vars : List String) :
    collect_daily_wind_data stations fetch s e vars
      = collect_daily_wind_data stations (emptyOnErr fetch) s e vars := by
  unfold collect_daily_wind_data
  rw [collectAux_emptyOnErr]

/-! ### Claim C10: variable deduplication -/

/-- Strict lexicographic order on (year, month) pairs. -/
def ymLt (a b : ℕ × ℕ) : Prop := a.1 < b.1 ∨ (a.1 = b.1 ∧ a.2 < b.2)

theorem ymLt_nextMonth (cur : ℕ × ℕ) : ymLt cur (nextMonth cur) := by
  unfold ymLt nextMonth
  by_cases h : cur.2 + 1 = 13 <;> simp [h]

theorem ymLt_of_lt_of_le {a b c : ℕ × ℕ} (h1 : ymLt a b) (h2 : ymLe b c) :
    ymLt a c := by
  unfold ymLt at *
  unfold ymLe at h2
  omega

theorem monthRangeAux_ge :
    ∀ (fuel : ℕ) (cur stop p : ℕ × ℕ), p ∈ monthRangeAux fuel cur stop →
      ymLe cur p := by
  intro fuel
  induction fuel with
  | zero => intro cur stop p hp; simp [monthRangeAux] at hp
  | succ n ih =>
    intro cur stop p hp
    simp only [monthRangeAux] at hp
    by_cases hle : ymLe cur stop
    · rw [if_pos hle] at hp
      rcases List.mem_cons.mp hp with rfl | hp
      · unfold ymLe; omega
      · have h1 := ih (nextMonth cur) stop p hp
        have h2 := ymLt_nextMonth cur
        unfold ymLe at *
        unfold ymLt at h2
        omega
    · rw [if_neg hle] at hp
      exact absurd hp (List.not_mem_nil p)

theorem monthRangeAux_pairwise :
    ∀ (fuel : ℕ) (cur stop : ℕ × ℕ), (monthRangeAux fuel cur stop).Pairwise ymLt := by
  intro fuel
  induction fuel with
  | zero => intro cur stop; simp [monthRangeAux]
  | succ n ih =>
    intro cur stop
    simp only [monthRangeAux]
    by_cases hle : ymLe cur stop
    · rw [if_pos hle]
      refine List.pairwise_cons.mpr ⟨fun p hp => ?_, ih (nextMonth cur) stop⟩
      exact ymLt_of_lt_of_le (ymLt_nextMonth cur) (monthRangeAux_ge n _ stop p hp)
    · rw [if_neg hle]; exact List.Pairwise.nil

theorem month_range_nodup {s e : Date} {months : List (ℕ × ℕ)}
    (h : month_range s e = .ok months) : months.Nodup := by
  unfold month_range at h
  by_cases hlt : dateLt e s = true
  · rw [if_pos hlt] at h; exact Except.noConfusion h
  · rw [if_neg hlt] at h
    have hm : months = monthRangeAux (12 * (e.year + 1)) (s.year, s.month)
        (e.year, e.month) := (Except.ok.inj h).symm
    rw [hm]
    exact (monthRangeAux_pairwise _ _ _).imp
      (fun hab => by unfold ymLt at hab; rintro rfl; omega)

theorem stationCalls_nodup {codes : List String} (hc : codes.Nodup) :
    ∀ {months : List (ℕ × ℕ)}, months.Nodup → (stationCalls months codes).Nodup := by
  intro months hm
  induction months with
  | nil => simp [stationCalls]
  | cons ym rest ih =>
    simp only [stationCalls, List.flatMap_cons]
    refine List.Nodup.append ?_ (by
      simpa [stationCalls] using ih (List.nodup_cons.mp hm).2) ?_
    · exact hc.map (fun a b hab => (Prod.mk.injEq _ _ _ _).mp hab |>.2)
    · intro p hp1 hp2
      obtain ⟨c1, _, rfl⟩ := List.mem_map.mp hp1
      simp only [stationCalls, List.mem_flatMap, List.mem_map] at hp2
      obtain ⟨ym2, hym2, c2, _, heq⟩ := hp2
      have : ym = ym2 := ((Prod.mk.injEq _ _ _ _).mp heq.symm).1
      exact (List.nodup_cons.mp hm).1 (this ▸ hym2)

/-- C10: collect_daily_wind_data deduplicates the requested variable
codes keeping first occurrences: its result on any variables list
equals its result on the duplicate-free first-occurrence subsequence
(first conjunct), that subsequence is duplicate-free, a subsequence of
the input, and holds exactly the input codes (middle conjuncts), and
within one station each (month, variable) combination is fetched at
most once (last conjunct: the issued call list has no duplicates). -/
theorem C10_variables_deduplicated (stations : List JMap) (fetch : Fetch)
    (s e : Date) (vars : List String) :
    collect_daily_wind_data stations fetch s e vars
      = collect_daily_wind_data stations fetch s e (dedupKeepFirst [] vars)
    ∧ (dedupKeepFirst [] vars).Nodup
    ∧ List.Sublist (dedupKeepFirst [] vars) vars
    ∧ (∀ v, v ∈ dedupKeepFirst [] vars ↔ v ∈ vars)
    ∧ ∀ months, month_range s e = .ok months →
        (stationCalls months (dedupKeepFirst [] vars)).Nodup := by
  refine ⟨?_, nodup_dedupKeepFirst vars [], dedupKeepFirst_sublist vars [],
    fun v => ?_, fun months hm => ?_⟩
  · unfold collect_daily_wind_data
    rw [dedupKeepFirst_idem]
  · rw [mem_dedupKeepFirst]
    simp
  · exact stationCalls_nodup (nodup_dedupKeepFirst vars []) (month_range_nodup hm)

/-- C10 witness: a concrete duplicated variable list, collapsed to its
first occurrences, with a duplicate-free call list for one month. -/
theorem C10_witness :
    collect_daily_wind_data [] (fun _ _ _ _ => .ok []) ⟨2024, 8, 1⟩ ⟨2024, 8, 1⟩
        ["VV10m", "DV10m", "VV10m"]
      = collect_daily_wind_data [] (fun _ _ _ _ => .ok []) ⟨2024, 8, 1⟩ ⟨2024, 8, 1⟩
        (dedupKeepFirst [] ["VV10m", "DV10m", "VV10m"])
    ∧ (stationCalls [(2024, 8)]
        (dedupKeepFirst [] ["VV10m", "DV10m", "VV10m"])).Nodup := by
  have h := C10_variables_deduplicated [] (fun _ _ _ _ => .ok [])
    ⟨2024, 8, 1⟩ ⟨2024, 8, 1⟩ ["VV10m", "DV10m", "VV10m"]
  exact ⟨h.1, h.2.2.2.2 [(2024, 8)] (by with_unfolding_all rfl)⟩

/-! ### Claim C6: unique (station, date) rows with incremental merge -/

theorem lookup_mem {α β : Type} [BEq α] [LawfulBEq α] {a : α} {b : β} :
    ∀ {l : List (α × β)}, l.lookup a = some b → (a, b) ∈ l := by
  intro l h
  induction l with
  | nil => exact Option.noConfusion h
  | cons p rest ih =>
    rw [List.lookup] at h
    by_cases hab : (a == p.1) = true
    · rw [hab] at h
      have h1 : p.1 = a := (eq_of_beq hab).symm
      have h2 : p.2 = b := Option.some.inj h
      have hp : p = (a, b) := Prod.ext h1 h2
      rw [hp]
      exact List.mem_cons_self _ _
    · have hf : (a == p.1) = false := by simpa using hab
      rw [hf] at h
      exact List.mem_cons_of_mem p (ih h)

theorem lookup_none_not_mem_keys {α β : Type} [BEq α] [LawfulBEq α] {a : α} :
    ∀ {l : List (α × β)}, l.lookup a = none → a ∉ l.map Prod.fst := by
  intro l h
  induction l with
  | nil => simp
  | cons p rest ih =>
    rw [List.lookup] at h
    by_cases hab : (a == p.1) = true
    · rw [hab] at h; exact Option.noConfusion h
    · have hf : (a == p.1) = false := by simpa using hab
      rw [hf] at h
      simp only [List.map_cons, List.mem_cons]
      rintro (rfl | hmem)
      · exact hab (beq_self_eq_true p.1)
      · exact ih h hmem

/-- Overwriting a column in place leaves other columns unchanged. -/
theorem lookup_map_setcol {k2 k : String} (hne : k2 ≠ k) (v : Cell) :
    ∀ (r : Row), (r.map (fun p => if p.1 = k then (p.1, v) else p)).lookup k2
      = r.lookup k2 := by
  intro r
  induction r with
  | nil => rfl
  | cons p rest ih =>
    simp only [List.map_cons]
    by_cases hp : p.1 = k
    · rw [if_pos hp, List.lookup, List.lookup]
      have hf : (k2 == p.1) = false := by simp [hp, hne]
      rw [hf]
      exact ih
    · rw [if_neg hp, List.lookup, List.lookup]
      cases k2 == p.1 with
      | true => rfl
      | false => exact ih

/-- Appending a new column leaves other columns unchanged. -/
theorem lookup_append_setcol {k2 k : String} (hne : k2 ≠ k) (v : Cell) :
    ∀ (r : Row), (r ++ [(k, v)]).lookup k2 = r.lookup k2 := by
  intro r
  induction r with
  | nil =>
    simp only [List.nil_append, List.lookup]
    have hf : (k2 == k) = false := by simp [hne]
    rw [hf]
  | cons p rest ih =>
    simp only [List.cons_append, List.lookup]
    cases k2 == p.1 with
    | true => rfl
    | false => exact ih

/-- Assigning one column leaves every other column unchanged. -/
theorem rowSet_lookup_ne {k2 k : String} (hne : k2 ≠ k) (v : Cell) (r : Row) :
    (rowSet r k v).lookup k2 = r.lookup k2 := by
  unfold rowSet
  by_cases hsome : (r.lookup k).isSome
  · rw [if_pos hsome]; exact lookup_map_setcol hne v r
  · rw [if_neg hsome]; exact lookup_append_setcol hne v r

/-- Invariant of the accumulating per-station mapping: date keys are
pairwise distinct and every row carries its own date in its date
column. -/
def dailyInv (daily : DailyMap) : Prop :=
  (daily.map Prod.fst).Nodup ∧ ∀ kr ∈ daily, kr.2.lookup "date" = some (.cs kr.1)

theorem baseRow_date (st : Station) (ds : String) :
    (baseRow st ds).lookup "date" = some (.cs ds) := rfl

theorem map_fst_condmap {β : Type} (ds : String) (f : String × β → β) :
    ∀ (l : List (String × β)),
      (l.map (fun p => if p.1 = ds then (p.1, f p) else p)).map Prod.fst
        = l.map Prod.fst := by
  intro l
  induction l with
  | nil => rfl
  | cons p rest ih =>
    simp only [List.map_cons, ih]
    by_cases hp : p.1 = ds <;> simp [hp]

theorem updDaily_inv {daily : DailyMap} {ds : String} {st : Station} {vc : String}
    {val : Option String} (hvc : vc ≠ "date") (h : dailyInv daily) :
    dailyInv (updDaily daily ds st vc val) := by
  have hvc2 : "date" ≠ vc := fun he => hvc he.symm
  unfold updDaily
  cases hl : daily.lookup ds with
  | some record =>
    constructor
    · rw [map_fst_condmap]
      exact h.1
    · intro kr hkr
      obtain ⟨p, hp, hkr2⟩ := List.mem_map.mp hkr
      by_cases hpd : p.1 = ds
      · rw [if_pos hpd] at hkr2
        rw [← hkr2]
        simp only
        rw [rowSet_lookup_ne hvc2, h.2 (ds, record) (lookup_mem hl), hpd]
      · rw [if_neg hpd] at hkr2
        exact hkr2 ▸ h.2 p hp
  | none =>
    constructor
    · rw [List.map_append]
      refine List.Nodup.append h.1 (by simp) ?_
      intro a ha1 ha2
      simp only [List.map_cons, List.map_nil, List.mem_singleton] at ha2
      exact lookup_none_not_mem_keys hl (ha2 ▸ ha1)
    · intro kr hkr
      rcases List.mem_append.mp hkr with hm | hm
      · exact h.2 kr hm
      · rw [List.mem_singleton.mp hm]
        simp only
        rw [rowSet_lookup_ne hvc2, baseRow_date]

theorem processEntry_inv {st : Station} {vc : String} {daily daily2 : DailyMap}
    {e : JVal} (hvc : vc ≠ "date") (h : dailyInv daily)
    (hres : processEntry st vc daily e = .ok daily2) : dailyInv daily2 := by
  cases e with
  | vobj fields =>
    rw [processEntry] at hres
    cases hfa : firstAtom fields ["data", "dia", "date"] with
    | error err => rw [hfa] at hres; exact Except.noConfusion hres
    | ok date =>
      rw [hfa] at hres
      simp only at hres
      by_cases hd : date = ""
      · rw [if_pos hd] at hres
        exact Except.ok.inj hres ▸ h
      · rw [if_neg hd] at hres
        exact Except.ok.inj hres ▸ updDaily_inv hvc h
  | vstr s2 => exact Except.ok.inj hres ▸ h
  | vint n => exact Except.ok.inj hres ▸ h
  | vnull => exact Except.ok.inj hres ▸ h

theorem processEntries_inv {st : Station} {vc : String} (hvc : vc ≠ "date") :
    ∀ {entries : List JVal} {daily daily2 : DailyMap}, dailyInv daily →
      processEntries st vc daily entries = .ok daily2 → dailyInv daily2 := by
  intro entries
  induction entries with
  | nil =>
    intro daily daily2 h hres
    exact Except.ok.inj hres ▸ h
  | cons e rest ih =>
    intro daily daily2 h hres
    rw [processEntries] at hres
    cases hpe : processEntry st vc daily e with
    | error err => rw [hpe] at hres; exact Except.noConfusion hres
    | ok dmid =>
      rw [hpe] at hres
      exact ih (processEntry_inv hvc h hpe) hres

theorem processVars_inv {fetch : Fetch} {st : Station} {y m : ℕ} :
    ∀ {codes : List String} {daily daily2 : DailyMap}, "date" ∉ codes →
      dailyInv daily → processVars fetch st y m daily codes = .ok daily2 →
      dailyInv daily2 := by
  intro codes
  induction codes with
  | nil =>
    intro daily daily2 _ h hres
    exact Except.ok.inj hres ▸ h
  | cons vc rest ih =>
    intro daily daily2 hdate h hres
    have hvc : vc ≠ "date" := fun he => hdate (he ▸ List.mem_cons_self vc rest)
    have hrest : "date" ∉ rest := fun hm => hdate (List.mem_cons_of_mem vc hm)
    rw [processVars] at hres
    cases hf : fetch st.code vc y m with
    | error e => rw [hf] at hres; exact ih hrest h hres
    | ok entries =>
      rw [hf] at hres
      simp only at hres
      cases hpe : processEntries st vc daily entries with
      | error err => rw [hpe] at hres; exact Except.noConfusion hres
      | ok dmid =>
        rw [hpe] at hres
        exact ih hrest (processEntries_inv hvc h hpe) hres

theorem processMonths_inv {fetch : Fetch} {st : Station} {codes : List String}
    (hdate : "date" ∉ codes) :
    ∀ {months : List (ℕ × ℕ)} {daily daily2 : DailyMap}, dailyInv daily →
      processMonths fetch st codes daily months = .ok daily2 → dailyInv daily2 := by
  intro months
  induction months with
  | nil =>
    intro daily daily2 h hres
    exact Except.ok.inj hres ▸ h
  | cons ym rest ih =>
    intro daily daily2 h hres
    obtain ⟨y, m⟩ := ym
    rw [processMonths] at hres
    cases hv : processVars fetch st y m daily codes with
    | error err => rw [hv] at hres; exact Except.noConfusion hres
    | ok dmid =>
      rw [hv] at hres
      exact ih (processVars_inv hdate h hv) hres

/-- One station block contains at most one row per date. -/
theorem stationRecords_dates_nodup {fetch : Fetch} {st : Station}
    {codes : List String} {s e : Date} {rows : List Row} (hdate : "date" ∉ codes)
    (hres : stationRecords fetch st codes s e = .ok rows) :
    (rows.map dateOfRow).Nodup := by
  rw [stationRecords] at hres
  cases hm : month_range s e with
  | error err => rw [hm] at hres; exact Except.noConfusion hres
  | ok months =>
    rw [hm] at hres
    simp only at hres
    cases hpm : processMonths fetch st codes [] months with
    | error err => rw [hpm] at hres; exact Except.noConfusion hres
    | ok daily =>
      rw [hpm] at hres
      have hinv : dailyInv daily :=
        processMonths_inv hdate (by constructor <;> simp [dailyInv]) hpm
      have hrows : rows = isort rowDateLe (daily.map Prod.snd) :=
        (Except.ok.inj hres).symm
      have hperm : List.Perm (rows.map dateOfRow)
          ((daily.map Prod.snd).map dateOfRow) := by
        rw [hrows]
        exact (isort_perm rowDateLe (daily.map Prod.snd)).map dateOfRow
      rw [hperm.nodup_iff]
      rw [List.map_map]
      have hcongr : daily.map (dateOfRow ∘ Prod.snd) = daily.map Prod.fst := by
        refine List.map_congr_left ?_
        intro kr hkr
        simp only [Function.comp]
        rw [dateOfRow, hinv.2 kr hkr]
      rw [hcongr]
      exact hinv.1

/-- The fetch collaborator of the C6 example: one VV10m entry and one
DV10m entry on the same date. -/
def c6fetch : Fetch := fun _ v _ _ =>
  if v = "VV10m" then .ok [.vobj [("date", .astr "2024-08-01"), ("valor", .aint 5)]]
  else if v = "DV10m" then
    .ok [.vobj [("date", .astr "2024-08-01"), ("valor", .aint 180)]]
  else .ok []

/-- The single merged row the C6 example must produce. -/
def c6row : Row :=
  [ ("station_code", .cs "S1"), ("station_name", .cnone), ("municipality", .cnone),
    ("county", .cnone), ("latitude", .cnone), ("longitude", .cnone),
    ("altitude", .cnone), ("date", .cs "2024-08-01"),
    ("VV10m", .cs "5"), ("DV10m", .cs "180") ]

/-- C6: rows are keyed uniquely per date within a station — whenever
one station's processing succeeds with variable codes not named date,
the emitted rows carry pairwise-distinct dates (first conjunct) — and
a later entry merges into the existing row of its date, overwriting
only its own column: the VV10m-then-DV10m example yields exactly one
row holding both columns (second conjunct). -/
theorem C6_unique_date_rows (fetch : Fetch) (st : Station) (codes : List String)
    (s e : Date) (rows : List Row) (hdate : "date" ∉ codes)
    (hres : stationRecords fetch st codes s e = .ok rows) :
    (rows.map dateOfRow).Nodup
    ∧ collect_daily_wind_data [[("codi", .vstr "S1")]] c6fetch
        ⟨2024, 8, 1⟩ ⟨2024, 8, 1⟩ ["VV10m", "DV10m"] = .ok [c6row] := by
  refine ⟨stationRecords_dates_nodup hdate hres, ?_⟩
  with_unfolding_all rfl

/-- C6 witness: the example station block itself has pairwise-distinct
dates and produces the single merged example row. -/
theorem C6_witness :
    (([c6row] : List Row).map dateOfRow).Nodup
    ∧ collect_daily_wind_data [[("codi", .vstr "S1")]] c6fetch
        ⟨2024, 8, 1⟩ ⟨2024, 8, 1⟩ ["VV10m", "DV10m"] = .ok [c6row] := by
  have h := C6_unique_date_rows c6fetch
    ⟨"S1", none, none, none, none, none, none⟩ ["VV10m", "DV10m"]
    ⟨2024, 8, 1⟩ ⟨2024, 8, 1⟩ [c6row] (by decide) (by with_unfolding_all rfl)
  exact h

/-! ### Decimal representations: digits only, and injectivity -/

theorem natDigitsAux_lt :
    ∀ (fuel n : ℕ), ∀ d ∈ natDigitsAux fuel n, d < 10 := by
  intro fuel
  induction fuel with
  | zero =>
    intro n d hd
    cases n <;> simp [natDigitsAux] at hd
  | succ f ih =>
    intro n d hd
    cases n with
    | zero => simp [natDigitsAux] at hd
    | succ n2 =>
      rw [natDigitsAux] at hd
      rcases List.mem_cons.mp hd with rfl | hd
      · exact Nat.mod_lt _ (by omega)
      · exact ih _ d hd

theorem natDigitsAux_val :
    ∀ (fuel n : ℕ), n ≤ fuel → digitsVal (natDigitsAux fuel n) = n := by
  intro fuel
  induction fuel with
  | zero =>
    intro n hn
    interval_cases n
    rfl
  | succ f ih =>
    intro n hn
    cases n with
    | zero => rfl
    | succ n2 =>
      rw [natDigitsAux, digitsVal]
      have hdiv : (n2 + 1) / 10 ≤ f := by
        have hlt : (n2 + 1) / 10 < n2 + 1 :=
          Nat.div_lt_self (Nat.succ_pos n2) (by omega)
        omega
      rw [ih _ hdiv]
      omega

theorem digitChar_ne_dash : ∀ d, d < 10 → digitChar d ≠ '-' := by decide

theorem digitChar_inj_lt : ∀ a, a < 10 → ∀ b, b < 10 →
    digitChar a = digitChar b → a = b := by decide

theorem natRepr_chars_ne_dash (n : ℕ) : ∀ c ∈ (natRepr n).data, c ≠ '-' := by
  intro c hc
  unfold natRepr at hc
  simp only [List.mem_map, List.mem_reverse] at hc
  obtain ⟨d, hd, rfl⟩ := hc
  by_cases hn : n = 0
  · rw [if_pos hn] at hd
    have : d = 0 := by simpa using hd
    exact this ▸ digitChar_ne_dash 0 (by omega)
  · rw [if_neg hn] at hd
    exact digitChar_ne_dash d (natDigitsAux_lt n n d hd)

theorem map_digitChar_inj :
    ∀ (l1 l2 : List ℕ), (∀ d ∈ l1, d < 10) → (∀ d ∈ l2, d < 10) →
      l1.map digitChar = l2.map digitChar → l1 = l2 := by
  intro l1
  induction l1 with
  | nil =>
    intro l2 _ _ h
    cases l2 with
    | nil => rfl
    | cons b bs => exact List.noConfusion h
  | cons a as ih =>
    intro l2 h1 h2 h
    cases l2 with
    | nil => exact List.noConfusion h
    | cons b bs =>
      simp only [List.map_cons, List.cons.injEq] at h
      have ha : a = b := digitChar_inj_lt a
        (h1 a (List.mem_cons_self a as)) b (h2 b (List.mem_cons_self b bs)) h.1
      rw [ha, ih bs (fun d hd => h1 d (List.mem_cons_of_mem a hd))
        (fun d hd => h2 d (List.mem_cons_of_mem b hd)) h.2]

theorem natRepr_digits_lt (n : ℕ) :
    ∀ d ∈ (if n = 0 then [0] else natDigits n), d < 10 := by
  by_cases hn : n = 0
  · rw [if_pos hn]
    intro d hd
    have : d = 0 := by simpa using hd
    omega
  · rw [if_neg hn]
    exact natDigitsAux_lt n n

theorem digitsVal_sel (n : ℕ) :
    digitsVal (if n = 0 then [0] else natDigits n) = n := by
  by_cases hn : n = 0
  · rw [if_pos hn, hn]
    rfl
  · rw [if_neg hn]
    exact natDigitsAux_val n n (Nat.le_refl n)

theorem natRepr_inj {a b : ℕ} (h : natRepr a = natRepr b) : a = b := by
  unfold natRepr at h
  have hdata : ((if a = 0 then [0] else natDigits a).reverse.map digitChar)
      = ((if b = 0 then [0] else natDigits b).reverse.map digitChar) :=
    congrArg String.data h
  have hrev : (if a = 0 then [0] else natDigits a).reverse
      = (if b = 0 then [0] else natDigits b).reverse :=
    map_digitChar_inj _ _
      (fun d hd => natRepr_digits_lt a d (List.mem_reverse.mp hd))
      (fun d hd => natRepr_digits_lt b d (List.mem_reverse.mp hd)) hdata
  have hsel : (if a = 0 then [0] else natDigits a)
      = (if b = 0 then [0] else natDigits b) := List.reverse_injective hrev
  calc a = digitsVal (if a = 0 then [0] else natDigits a) := (digitsVal_sel a).symm
    _ = digitsVal (if b = 0 then [0] else natDigits b) := by rw [hsel]
    _ = b := digitsVal_sel b

/-! ### Prefix structure of period labels -/

theorem prefix_digit_cancel :
    ∀ (A B C : List Char), (∀ c ∈ A, c ≠ '-') → (∀ c ∈ B, c ≠ '-') →
      List.IsPrefix (A ++ ['-']) (B ++ '-' :: C) → A = B := by
  intro A
  induction A with
  | nil =>
    intro B C _ hB hpre
    cases B with
    | nil => rfl
    | cons b bs =>
      obtain ⟨t, ht⟩ := hpre
      simp only [List.nil_append, List.cons_append] at ht
      have : '-' = b := (List.cons.injEq _ _ _ _).mp ht.symm |>.1 |>.symm
      exact absurd this.symm (hB b (List.mem_cons_self b bs))
  | cons a as ih =>
    intro B C hA hB hpre
    cases B with
    | nil =>
      obtain ⟨t, ht⟩ := hpre
      simp only [List.cons_append, List.nil_append] at ht
      have : a = '-' := (List.cons.injEq _ _ _ _).mp ht |>.1
      exact absurd this (hA a (List.mem_cons_self a as))
    | cons b bs =>
      obtain ⟨t, ht⟩ := hpre
      simp only [List.cons_append] at ht
      obtain ⟨hab, hrest⟩ := (List.cons.injEq _ _ _ _).mp ht
      have htail : List.IsPrefix (as ++ ['-']) (bs ++ '-' :: C) := ⟨t, hrest⟩
      rw [hab, ih bs C (fun c hc => hA c (List.mem_cons_of_mem a hc))
        (fun c hc => hB c (List.mem_cons_of_mem b hc)) htail]

/-- The year of a monthly label: a label of the shape Y-mm begins with
Y2 followed by a dash exactly when the two year numbers agree. -/
theorem monthLabel_prefix_iff (y y2 m : ℕ) :
    ((natRepr y ++ "-").data.isPrefixOf
        (natRepr y2 ++ "-" ++ pad2 m).data = true) ↔ y = y2 := by
  rw [List.isPrefixOf_iff_prefix]
  constructor
  · intro hpre
    simp only [String.data_append] at hpre
    rw [List.append_assoc] at hpre
    have hpre2 : List.IsPrefix ((natRepr y).data ++ ['-'])
        ((natRepr y2).data ++ '-' :: (pad2 m).data) := by
      simpa using hpre
    have heq := prefix_digit_cancel _ _ _ (natRepr_chars_ne_dash y)
      (natRepr_chars_ne_dash y2) hpre2
    exact natRepr_inj (String.ext heq)
  · rintro rfl
    simp only [String.data_append]
    exact ⟨(pad2 m).data, by simp⟩

/-! ### Regrouping sums: monthly totals refine the yearly total -/

theorem sum_filter_split {α : Type} (p : α → Bool) (f : α → ℚ) :
    ∀ (l : List α),
      ((l.filter p).map f).sum + ((l.filter (fun a => !(p a))).map f).sum
        = (l.map f).sum := by
  intro l
  induction l with
  | nil => simp
  | cons x xs ih =>
    by_cases hx : p x = true
    · rw [List.filter_cons_of_pos hx, List.filter_cons_of_neg (by simp [hx])]
      simp only [List.map_cons, List.sum_cons]
      rw [← ih]
      ring
    · have hx2 : p x = false := by simpa using hx
      rw [List.filter_cons_of_neg (by simp [hx2]),
        List.filter_cons_of_pos (by simp [hx2])]
      simp only [List.map_cons, List.sum_cons]
      rw [← ih]
      ring

theorem sum_groups {κ : Type} [DecidableEq κ] :
    ∀ (ks : List κ) (L : List (κ × ℚ)), ks.Nodup → (∀ x ∈ L, x.1 ∈ ks) →
      (ks.map (fun k => ((L.filter (fun p => p.1 = k)).map Prod.snd).sum)).sum
        = (L.map Prod.snd).sum := by
  intro ks
  induction ks with
  | nil =>
    intro L _ hall
    cases L with
    | nil => simp
    | cons x xs => exact absurd (hall x (List.mem_cons_self x xs)) (List.not_mem_nil _)
  | cons k rest ih =>
    intro L hnd hall
    simp only [List.map_cons, List.sum_cons]
    have hsplit := sum_filter_split (fun p => p.1 = k) Prod.snd L
    set L2 := L.filter (fun p => !(decide (p.1 = k))) with hL2
    have hall2 : ∀ x ∈ L2, x.1 ∈ rest := by
      intro x hx
      have hmem := List.mem_of_mem_filter hx
      have hne : x.1 ≠ k := by
        have := List.of_mem_filter hx
        simpa using this
      rcases List.mem_cons.mp (hall x hmem) with h | h
      · exact absurd h hne
      · exact h
    have hcongr : ∀ k2 ∈ rest,
        L.filter (fun p => p.1 = k2) = L2.filter (fun p => p.1 = k2) := by
      intro k2 hk2
      have hkne : k2 ≠ k := by
        rintro rfl
        exact (List.nodup_cons.mp hnd).1 hk2
      rw [hL2, List.filter_filter]
      refine List.filter_congr ?_
      intro x _
      by_cases hx : x.1 = k2
      · simp [hx, hkne]
      · simp [hx]
    have hrw : (rest.map (fun k2 =>
        ((L.filter (fun p => p.1 = k2)).map Prod.snd).sum)).sum
        = (rest.map (fun k2 =>
        ((L2.filter (fun p => p.1 = k2)).map Prod.snd).sum)).sum := by
      congr 1
      refine List.map_congr_left ?_
      intro k2 hk2
      rw [hcongr k2 hk2]
    rw [hrw, ih L2 (List.nodup_cons.mp hnd).2 hall2]
    rw [← hsplit]

/-- The sum of the monthly totals of the keys of one year equals the
yearly total of that year: the month groups of a year partition the
year group. -/
theorem regroup_monthly_yearly (S : List (Date × ℚ)) (y : ℕ) :
    (((isort keyLe (keysOf (S.map (fun p => (monthKey p.1, p.2))))).filter
        (fun k => k.1 = y)).map
      (fun k => totalFor k (S.map (fun p => (monthKey p.1, p.2))))).sum
    = totalFor (y, none) (S.map (fun p => (yearKey p.1, p.2))) := by
  set KM := S.map (fun p => (monthKey p.1, p.2)) with hKM
  set ks := (isort keyLe (keysOf KM)).filter (fun k => decide (k.1 = y)) with hks
  set L := KM.filter (fun p => decide (p.1.1 = y)) with hL
  have hknd : ks.Nodup := by
    rw [hks]
    exact ((isort_perm keyLe (keysOf KM)).nodup_iff.mpr
      (nodup_dedupKeepFirst _ _)).filter _
  have hall : ∀ x ∈ L, x.1 ∈ ks := by
    intro x hx
    have hmem : x ∈ KM := List.mem_of_mem_filter hx
    have hyx : x.1.1 = y := by simpa using List.of_mem_filter hx
    rw [hks]
    refine List.mem_filter.mpr ⟨mem_isort.mpr (mem_dedupKeepFirst.mpr
      ⟨List.mem_map.mpr ⟨x, hmem, rfl⟩, by simp⟩), by simpa using hyx⟩
  have htot : ∀ k ∈ ks, totalFor k KM = totalFor k L := by
    intro k hk
    have hky : k.1 = y := by
      have := List.of_mem_filter (hks ▸ hk)
      simpa using this
    unfold totalFor
    refine congrArg (fun l => ((List.map Prod.snd l).sum : ℚ)) ?_
    rw [hL, List.filter_filter]
    refine (List.filter_congr ?_).symm
    intro x _
    by_cases hx : x.1 = k
    · have hxy : x.1.1 = y := by rw [hx, hky]
      simp [hx, hxy, hky]
    · simp [hx]
  have hmapcongr : (ks.map (fun k => totalFor k KM)).sum
      = (ks.map (fun k => totalFor k L)).sum := by
    congr 1
    exact List.map_congr_left htot
  have hgroups := sum_groups ks L hknd hall
  have hLs : L.map Prod.snd
      = ((S.filter (fun p => decide (p.1.year = y))).map
          (fun p => (monthKey p.1, p.2))).map Prod.snd := by
    rw [hL, hKM, List.filter_map]
    rfl
  have hrhs : totalFor (y, none) (S.map (fun p => (yearKey p.1, p.2)))
      = ((S.filter (fun p => decide (p.1.year = y))).map Prod.snd).sum := by
    unfold totalFor
    rw [List.filter_map]
    have hfc : S.filter ((fun q => decide (q.1 = ((y : ℕ), (none : Option ℕ))))
        ∘ (fun p => (yearKey p.1, p.2))) = S.filter (fun p => decide (p.1.year = y)) := by
      refine List.filter_congr ?_
      intro p _
      simp [Function.comp, yearKey, Prod.ext_iff]
    rw [hfc, List.map_map]
    rfl
  rw [hmapcongr, hrhs]
  have hsnd : ((S.filter (fun p => decide (p.1.year = y))).map
      (fun p => ((monthKey p.1 : PeriodKey), p.2))).map Prod.snd
      = (S.filter (fun p => decide (p.1.year = y))).map Prod.snd := by
    rw [List.map_map]
    rfl
  rw [← hsnd, ← hLs]
  exact hgroups

/-! ### Exact rounding on integer-cent values -/

/-- A rational that is an integer multiple of one hundredth. -/
def centQ (q : ℚ) : Prop := ∃ n : ℤ, q = (n : ℚ) / 100

theorem centQ_sum : ∀ (l : List ℚ), (∀ x ∈ l, centQ x) → centQ l.sum := by
  intro l h
  induction l with
  | nil => exact ⟨0, by norm_num⟩
  | cons x xs ih =>
    obtain ⟨n1, hn1⟩ := h x (List.mem_cons_self x xs)
    obtain ⟨n2, hn2⟩ := ih (fun a ha => h a (List.mem_cons_of_mem x ha))
    refine ⟨n1 + n2, ?_⟩
    rw [List.sum_cons, hn1, hn2]
    push_cast
    ring

theorem round2_cent {n : ℤ} : round2 ((n : ℚ) / 100) = (n : ℚ) / 100 := by
  unfold round2 rhe
  have h1 : ((n : ℚ) / 100) * 100 = (n : ℚ) := by
    field_simp
  rw [h1]
  simp only [Rat.num_intCast, Rat.den_intCast, Nat.cast_one, Int.fdiv_one,
    sub_self]
  norm_num

theorem round2_centQ {q : ℚ} (h : centQ q) : round2 q = q := by
  obtain ⟨n, rfl⟩ := h
  exact round2_cent

theorem totalFor_cent {k : PeriodKey} {l : List (PeriodKey × ℚ)}
    (h : ∀ x ∈ l, centQ x.2) : centQ (totalFor k l) := by
  refine centQ_sum _ ?_
  intro x hx
  obtain ⟨p, hp, rfl⟩ := List.mem_map.mp hx
  exact h p (List.mem_of_mem_filter hp)

/-! ### Claim C2 -/

/-- C2 (amended): when every normalized value is an integer multiple of
0.01 — so that rounding each group total to 2 decimals is exact — the
values of the monthly entries whose period label starts with a year
(followed by the dash separator) sum to exactly that year's yearly
value. Without that proviso the per-month rounding can break the
equality, as the counterexample shows. -/
theorem C2_monthly_refines_yearly (daily : List JVal) (vk dk : String)
    (r : List (String × List AggEntry)) (M Y : List AggEntry)
    (hres : aggregate_precipitation daily ["weekly", "monthly", "yearly"] vk dk
      = .ok r)
    (hM : r.lookup "monthly" = some M) (hY : r.lookup "yearly" = some Y)
    (hcent : ∀ p ∈ normalizeEntries vk dk daily, centQ p.2) :
    ∀ ey ∈ Y, ((M.filter (fun en =>
        (ey.period ++ "-").data.isPrefixOf en.period.data)).map AggEntry.value).sum
      = ey.value := by
  rw [aggregate_default_eq daily vk dk] at hres
  have hr : r = [("weekly", aggPure weekKey weekLabel
      (isort dateValLe (normalizeEntries vk dk daily))),
    ("monthly", aggPure monthKey monthLabel
      (isort dateValLe (normalizeEntries vk dk daily))),
    ("yearly", aggPure yearKey yearLabel
      (isort dateValLe (normalizeEntries vk dk daily)))] := (Except.ok.inj hres).symm
  set S := isort dateValLe (normalizeEntries vk dk daily) with hS
  have hMv : M = aggPure monthKey monthLabel S := by
    rw [hr] at hM
    simpa [List.lookup] using hM.symm
  have hYv : Y = aggPure yearKey yearLabel S := by
    rw [hr] at hY
    simpa [List.lookup] using hY.symm
  have hScent : ∀ p ∈ S, centQ p.2 := fun p hp =>
    hcent p (mem_isort.mp hp)
  have hKMcent : ∀ x ∈ S.map (fun p => ((monthKey p.1 : PeriodKey), p.2)),
      centQ x.2 := by
    intro x hx
    obtain ⟨p, hp, rfl⟩ := List.mem_map.mp hx
    exact hScent p hp
  have hKYcent : ∀ x ∈ S.map (fun p => ((yearKey p.1 : PeriodKey), p.2)),
      centQ x.2 := by
    intro x hx
    obtain ⟨p, hp, rfl⟩ := List.mem_map.mp hx
    exact hScent p hp
  intro ey hey
  rw [hYv] at hey
  unfold aggPure at hey
  obtain ⟨k, hk, hey2⟩ := List.mem_map.mp hey
  obtain ⟨d, hd⟩ := keysOf_shape hk
  obtain ⟨y, knone⟩ : ∃ y, k = (y, none) := ⟨d.year, by rw [hd]; rfl⟩
  have hperiod : ey.period = natRepr y := by
    rw [← hey2, knone]
    rfl
  have hvalue : ey.value = round2 (totalFor k
      (S.map (fun p => (yearKey p.1, p.2)))) := by
    rw [← hey2]
  rw [hMv]
  unfold aggPure
  rw [List.filter_map, List.map_map]
  have hfcongr : (isort keyLe (keysOf (S.map (fun p => (monthKey p.1, p.2))))).filter
      ((fun en => (ey.period ++ "-").data.isPrefixOf en.period.data)
        ∘ (fun k2 => (⟨monthLabel k2, round2 (totalFor k2
            (S.map (fun p => (monthKey p.1, p.2))))⟩ : AggEntry)))
      = (isort keyLe (keysOf (S.map (fun p => (monthKey p.1, p.2))))).filter
          (fun k2 => k2.1 = y) := by
    refine List.filter_congr ?_
    intro k2 hk2
    obtain ⟨d2, hd2⟩ := keysOf_shape hk2
    simp only [Function.comp]
    rw [hperiod, hd2]
    have hlab : monthLabel (monthKey d2)
        = natRepr d2.year ++ "-" ++ pad2 d2.month := rfl
    rw [hlab]
    rw [show ((natRepr y ++ "-").data.isPrefixOf
        (natRepr d2.year ++ "-" ++ pad2 d2.month).data)
      = decide ((natRepr y ++ "-").data.isPrefixOf
        (natRepr d2.year ++ "-" ++ pad2 d2.month).data = true) from
      Bool.decide_eq_true.symm]
    refine decide_eq_decide.mpr ?_
    rw [monthLabel_prefix_iff]
    constructor
    · intro h
      rw [show (monthKey d2).1 = d2.year from rfl, h.symm]
    · intro h
      rw [show (monthKey d2).1 = d2.year from rfl] at h
      exact h.symm
  rw [hfcongr]
  have hvals : ((isort keyLe (keysOf (S.map (fun p => (monthKey p.1, p.2))))).filter
      (fun k2 => k2.1 = y)).map
        ((fun en => AggEntry.value en)
          ∘ (fun k2 => (⟨monthLabel k2, round2 (totalFor k2
            (S.map (fun p => (monthKey p.1, p.2))))⟩ : AggEntry)))
      = ((isort keyLe (keysOf (S.map (fun p => (monthKey p.1, p.2))))).filter
          (fun k2 => k2.1 = y)).map
        (fun k2 => totalFor k2 (S.map (fun p => (monthKey p.1, p.2)))) := by
    refine List.map_congr_left ?_
    intro k2 _
    simp only [Function.comp]
    exact round2_centQ (totalFor_cent hKMcent)
  rw [hvals, regroup_monthly_yearly S y, hvalue, knone]
  exact (round2_centQ (totalFor_cent hKYcent)).symm

/-- C2 counterexample: two months of 0.125 each. Each monthly total is
rounded half-to-even to 0.12, so the monthly values sum to 0.24, while
the yearly entry holds round(0.25, 2) = 0.25; the sums of the monthly
entries of year 2024 do not equal the yearly value. -/
theorem C2_counterexample :
    aggregate_precipitation
      [ .vobj [("date", .astr "2024-01-01"), ("value", .astr "0.125")],
        .vobj [("date", .astr "2024-02-01"), ("value", .astr "0.125")] ]
      ["weekly", "monthly", "yearly"] "value" "date"
    = .ok [("weekly", [⟨"2024-W01", 3 / 25⟩, ⟨"2024-W05", 3 / 25⟩]),
           ("monthly", [⟨"2024-01", 3 / 25⟩, ⟨"2024-02", 3 / 25⟩]),
           ("yearly", [⟨"2024", 1 / 4⟩])]
    ∧ ((([⟨"2024-01", (3 : ℚ) / 25⟩, ⟨"2024-02", (3 : ℚ) / 25⟩] :
          List AggEntry).filter (fun en =>
            ((⟨"2024", (1 : ℚ) / 4⟩ : AggEntry).period ++ "-").data.isPrefixOf
              en.period.data)).map AggEntry.value).sum
        ≠ (⟨"2024", (1 : ℚ) / 4⟩ : AggEntry).value := by
  constructor
  · with_unfolding_all rfl
  · have hsum : ((([⟨"2024-01", (3 : ℚ) / 25⟩, ⟨"2024-02", (3 : ℚ) / 25⟩] :
        List AggEntry).filter (fun en =>
          ((⟨"2024", (1 : ℚ) / 4⟩ : AggEntry).period ++ "-").data.isPrefixOf
            en.period.data)).map AggEntry.value).sum = 6 / 25 := by
      with_unfolding_all rfl
    rw [hsum]
    norm_num

/-- C2 witness: on integer inputs the monthly values of 2024 sum to the
yearly value. -/
theorem C2_witness :
    ((([⟨"2024-01", (1 : ℚ)⟩, ⟨"2024-02", (2 : ℚ)⟩] : List AggEntry).filter
        (fun en => ((⟨"2024", (3 : ℚ)⟩ : AggEntry).period ++ "-").data.isPrefixOf
          en.period.data)).map AggEntry.value).sum
      = (⟨"2024", (3 : ℚ)⟩ : AggEntry).value := by
  have hN : normalizeEntries "value" "date"
      [ .vobj [("date", .astr "2024-01-05"), ("value", .aint 1)],
        .vobj [("date", .astr "2024-02-06"), ("value", .aint 2)] ]
      = [(⟨2024, 1, 5⟩, (1 : ℚ)), (⟨2024, 2, 6⟩, (2 : ℚ))] := by
    with_unfolding_all rfl
  have hcent : ∀ p ∈ normalizeEntries "value" "date"
      [ .vobj [("date", .astr "2024-01-05"), ("value", .aint 1)],
        .vobj [("date", .astr "2024-02-06"), ("value", .aint 2)] ], centQ p.2 := by
    rw [hN]
    intro p hp
    rcases List.mem_cons.mp hp with rfl | hp
    · exact ⟨100, by norm_num⟩
    rcases List.mem_cons.mp hp with rfl | hp
    · exact ⟨200, by norm_num⟩
    · exact absurd hp (List.not_mem_nil p)
  have h := C2_monthly_refines_yearly
    [ .vobj [("date", .astr "2024-01-05"), ("value", .aint 1)],
      .vobj [("date", .astr "2024-02-06"), ("value", .aint 2)] ]
    "value" "date"
    [("weekly", [⟨"2024-W01", 1⟩, ⟨"2024-W06", 2⟩]),
     ("monthly", [⟨"2024-01", 1⟩, ⟨"2024-02", 2⟩]),
     ("yearly", [⟨"2024", 3⟩])]
    [⟨"2024-01", 1⟩, ⟨"2024-02", 2⟩] [⟨"2024", 3⟩]
    (by with_unfolding_all rfl) (by with_unfolding_all rfl)
    (by with_unfolding_all rfl) hcent
  exact h ⟨"2024", 3⟩ (by simp)
